import Mathlib

/-!
Verification of the sandboxed Python-subset interpreter
(src/testing/python_interpreter.py).

This file gives a shallow embedding of the evaluator in
`src/testing/python_interpreter.py` and settles the behavioural claims
C1..C10 about it.

Modelling conventions:

* The abstract syntax tree (`Ast`) mirrors the `ast` node shapes the
  dispatcher `evaluate_ast` handles, restricted to the constructs the
  claims exercise (no `Subscript`/`Slice`/`Dict`/`For`/f-strings/
  `Starred`; the Python `ast.Expr` statement wrapper is implicit since
  the dispatcher just unwraps it).
* Python values are the closed union `Value`. Host (CPython-level)
  objects that the script can reach only through reflection or imports
  are modelled by the opaque `Value.host`. Caller-supplied tools are
  `Value.hostFn`; their behaviour is modelled by `hostResult`, and every
  host invocation is recorded in a ghost `log` so that side effects are
  observable. Floats and object identity (`is`) are not modelled; no
  claim needs them.
* The mutable `state` dict threads through evaluation by reference; a
  function value closes over the *dict object* of its definition scope.
  We model dict identity with a heap of environments (`InterpState.heap`)
  and an environment reference (`ρ : Nat`); `Value.func` stores the
  reference captured at definition time, exactly like the Python closure
  captures `state`.
* Errors: `PyErr.interp` is `InterpretorError`, `PyErr.assertFail` is
  `AssertionError`, `PyErr.host` covers other host exceptions the
  interpreter itself triggers (e.g. the `TypeError` from
  `isinstance(e, handler.type)` where `handler.type` is an AST node).
  `PyErr.fuelOut` is the standard fuel artifact of the embedding; it is
  treated as uncatchable and corresponds to no real behaviour.
* `difflib.get_close_matches` (used for fuzzy name/key resolution) is
  modelled from the CPython stdlib: `SequenceMatcher` total matching
  size via recursive longest-matching-block decomposition (no junk
  heuristic: the names involved are far below the autojunk threshold),
  ratio `2*M/T` compared exactly as rationals, cutoff `0.6`, and
  `heapq.nlargest` tie-breaking on the `(ratio, word)` tuple.
-/

namespace PyInterp

/-! ## Syntax -/

/-- Comparison operators of `ast.Compare` handled by `evaluate_compare` /
`evaluate_condition` (identity operators `is`/`is not` are omitted:
object identity is not representable in the pure model and no claim
uses it). -/
inductive CmpOp where
  | eq | ne | lt | le | gt | ge | inOp | notIn
deriving DecidableEq, Repr

/-- Binary operators handled by `evaluate_binop` (true division is
omitted together with floats). -/
inductive BinOpK where
  | add | sub | mult | floorDiv | mod | pow
deriving DecidableEq, Repr

/-- Unary operators of `evaluate_unaryop`. -/
inductive UOpK where
  | uadd | usub | notOp | invert
deriving DecidableEq, Repr

/-- The `ast.BoolOp` operators. -/
inductive BOpK where
  | andOp | orOp
deriving DecidableEq, Repr

/-- Assignment / comprehension targets: a plain name or a one-level
tuple of names (`evaluate_assign` reads `t.id` of each element). -/
inductive Target where
  | one (id : String)
  | tup (ids : List String)
deriving DecidableEq, Repr

/-- The syntax-tree nodes, one case per `ast` class the dispatcher
handles (restricted to the sub-language the claims are about). -/
inductive Ast where
  | constInt (n : Int)
  | constStr (s : String)
  | constBool (b : Bool)
  | constNone
  | name (id : String)
  | list (elts : List Ast)
  | tuple (elts : List Ast)
  | binop (op : BinOpK) (l r : Ast)
  | unaryop (op : UOpK) (e : Ast)
  | boolop (op : BOpK) (values : List Ast)
  | compare (left : Ast) (pairs : List (CmpOp × Ast))
  | call (func : Ast) (args : List Ast) (kwargs : List (String × Ast))
  | attribute (value : Ast) (attr : String)
  | assign (target : Target) (value : Ast)
  | ifStmt (test : Ast) (body orelse : List Ast)
  | importStmt (names : List String)
  | importFrom (module : String) (names : List String)
  | functionDef (nm : String) (params : List String) (defaults : List Ast) (body : List Ast)
  | ret (value : Option Ast)
  | pass
  | raiseStmt (exc : Option Ast)
  | assertStmt (test : Ast) (msg : Option Ast)
  | tryStmt (body : List Ast) (handlers : List (Option Ast × List Ast)) (finalbody : List Ast)
  | listComp (elt : Ast) (target : Target) (iter : Ast)
deriving Repr

/-! ## Values -/

/-- Opaque host objects: imported modules and members fetched by
reflection (`getattr`). `member base attr` records the access path. -/
inductive HostObj where
  | module (name : String)
  | member (base : String) (attr : String)
deriving DecidableEq, Repr

/-- The dynamic value union of the interpreter. -/
inductive Value where
  | none
  | int (n : Int)
  | bool (b : Bool)
  | str (s : String)
  | vlist (xs : List Value)
  | vtuple (xs : List Value)
  /-- A user-defined function created by `evaluate_function_def`:
  parameter names, default values (evaluated at definition time), the
  body, and the *reference* to the definition-scope environment dict
  captured by the Python closure. -/
  | func (fname : String) (params : List String) (defaults : List Value)
         (body : List Ast) (envRef : Nat)
  /-- A caller-supplied tool (host callable) from the registry. -/
  | hostFn (name : String)
  /-- An opaque host object (reachable via import or reflection). -/
  | host (h : HostObj)
deriving Repr

/-- Runtime errors: `InterpretorError`, `AssertionError`, other host
exceptions (kind + message), and the fuel artifact. -/
inductive PyErr where
  | interp (msg : String)
  | assertFail (msg : String)
  | host (kind msg : String)
  | fuelOut
deriving DecidableEq, Repr

/-! ## Environments and interpreter state -/

/-- An environment: a Python dict as an insertion-ordered association
list. -/
abbrev Env := List (String × Value)

/-- The `d[k] = v` on an insertion-ordered dict: updates in place, appends
if the key is fresh. -/
def envSet : Env → String → Value → Env
  | [], k, v => [(k, v)]
  | (k', v') :: rest, k, v =>
      if k' = k then (k', v) :: rest else (k', v') :: envSet rest k v

/-- The interpreter state: the heap of environment dicts (dict identity
= index), the tool registry (also a dict, mutated by
`evaluate_function_def`), and the ghost log of host-tool invocations. -/
structure InterpState where
  heap : List Env
  tools : List (String × Value)
  log : List (String × List Value)
deriving Repr

/-- The environment dict behind reference `ρ`. -/
def stEnv (st : InterpState) (ρ : Nat) : Env := st.heap.getD ρ []

/-- Overwrite the environment dict behind reference `ρ`. -/
def stSetEnv (st : InterpState) (ρ : Nat) (env : Env) : InterpState :=
  { st with heap := st.heap.set ρ env }

/-! ## The difflib model (fuzzy name resolution)

`evaluate_name` falls back to `difflib.get_close_matches(name, keys)`.
We model the stdlib function: total `SequenceMatcher` matching size `M`
via the recursive longest-matching-block decomposition, similarity
`ratio = 2*M/(len(a)+len(b))`, cutoff `0.6`, candidates ordered as by
`heapq.nlargest(3, [(ratio, word), ...])` (best ratio first, ties going
to the lexicographically larger word; keys are distinct so the order is
total). Ratios are compared as exact rationals via cross-multiplication
(the float rounding of CPython cannot differ for names of sane length). -/

/-- Length of the common prefix of two character lists. -/
def commonLen : List Char → List Char → Nat
  | a :: as, b :: bs => if a = b then commonLen as bs + 1 else 0
  | _, _ => 0

/-- The `SequenceMatcher.find_longest_match` over the whole ranges, no junk:
the longest common substring, ties broken to the smallest start in `a`,
then the smallest start in `b`; returns (start in a, start in b, size). -/
def findLongestMatch (a b : List Char) : Nat × Nat × Nat :=
  (List.range a.length).foldl (fun best i =>
    (List.range b.length).foldl (fun best j =>
      let k := commonLen (a.drop i) (b.drop j)
      if k > best.2.2 then (i, j, k) else best) best) (0, 0, 0)

/-- Total matched size `M` of `get_matching_blocks`: recursively split
at the longest match. The fuel `|a|+|b|+1` dominates the recursion
depth (each recursive call strictly decreases the total length). -/
def matchTotalAux : Nat → List Char → List Char → Nat
  | 0, _, _ => 0
  | fuel + 1, a, b =>
      let (i, j, k) := findLongestMatch a b
      if k = 0 then 0
      else
        matchTotalAux fuel (a.take i) (b.take j) + k +
          matchTotalAux fuel (a.drop (i + k)) (b.drop (j + k))

/-- Total matched size `M` used by `SequenceMatcher.ratio`. -/
def matchTotal (a b : List Char) : Nat :=
  matchTotalAux (a.length + b.length + 1) a b

/-- Lexicographic string comparison by code point — Python's `str <`
(kernel-reducible, unlike the host `String` order instance). -/
def strLtB : List Char → List Char → Bool
  | [], [] => false
  | [], _ :: _ => true
  | _ :: _, [] => false
  | x :: xs, y :: ys =>
      if x.toNat < y.toNat then true
      else if y.toNat < x.toNat then false
      else strLtB xs ys

/-- Insert into a list sorted by the strict "ranks ahead" relation. -/
def insertBy (lt : α → α → Bool) (x : α) : List α → List α
  | [] => [x]
  | y :: ys => if lt x y then x :: y :: ys else y :: insertBy lt x ys

/-- Insertion sort by a strict "ranks ahead" relation. -/
def insertSortBy (lt : α → α → Bool) : List α → List α
  | [] => []
  | x :: xs => insertBy lt x (insertSortBy lt xs)

/-- The `difflib.get_close_matches(word, possibilities)` with the default
`n = 3`, `cutoff = 0.6`. -/
def getCloseMatches (word : String) (possibilities : List String) : List String :=
  let w := word.data
  let score : String → Nat × Nat := fun x =>
    (matchTotal x.data w, x.length + word.length)
  let keep : String → Bool := fun x =>
    let (m, t) := score x
    10 * m ≥ 3 * t
  let better : String → String → Bool := fun x y =>
    let (mx, tx) := score x
    let (my, ty) := score y
    if mx * ty = my * tx then strLtB y.data x.data else decide (mx * ty > my * tx)
  ((insertSortBy better (possibilities.filter keep)).take 3)

/-! ## Value helpers -/

/-- Numeric view: Python arithmetic and comparison treat `bool` as the
ints 0/1. -/
def asInt : Value → Option Int
  | .int n => some n
  | .bool b => some (if b then 1 else 0)
  | _ => Option.none

/-- Python truthiness. -/
def truthy : Value → Bool
  | .none => false
  | .int n => n ≠ 0
  | .bool b => b
  | .str s => s ≠ ""
  | .vlist xs => ¬ xs.isEmpty
  | .vtuple xs => ¬ xs.isEmpty
  | .func _ _ _ _ _ => true
  | .hostFn _ => true
  | .host _ => true

/-- Python `==`, fueled to recurse through containers. Function/host
values compare structurally (Python compares them by identity; no claim
compares such values). -/
def pyEqF : Nat → Value → Value → Bool
  | 0, _, _ => false
  | fuel + 1, a, b =>
    match a, b with
    | .int x, .int y => x == y
    | .int x, .bool y => x == (if y then 1 else 0)
    | .bool x, .int y => (if x then (1 : Int) else 0) == y
    | .bool x, .bool y => x == y
    | .str x, .str y => x == y
    | .none, .none => true
    | .vlist xs, .vlist ys =>
        xs.length == ys.length && (xs.zip ys).all fun p => pyEqF fuel p.1 p.2
    | .vtuple xs, .vtuple ys =>
        xs.length == ys.length && (xs.zip ys).all fun p => pyEqF fuel p.1 p.2
    | .hostFn x, .hostFn y => x == y
    | .host x, .host y => decide (x = y)
    | .func n1 p1 _ _ r1, .func n2 p2 _ _ r2 =>
        n1 == n2 && p1 == p2 && r1 == r2
    | _, _ => false

/-- Python `==` on values. The constant fuel keeps the definition
kernel-reducible; it dominates the container depth of every value any
modelled program can build (the fuel only decreases when descending one
nesting level of the left operand). -/
def pyEq (a b : Value) : Bool := pyEqF 1000 a b

/-- Python `in` (membership): lists/tuples by `==` on elements, strings
by substring. Other right operands raise `TypeError` (host semantics
for dict-free values). -/
def pyIn (a b : Value) : Except PyErr Bool :=
  match b with
  | .vlist xs => .ok (xs.any fun x => pyEq a x)
  | .vtuple xs => .ok (xs.any fun x => pyEq a x)
  | .str s =>
      match a with
      | .str t =>
          .ok ((List.range (s.length + 1)).any fun i =>
            t.data.isPrefixOf (s.data.drop i))
      | _ => .error (.host "TypeError" "'in <string>' requires string as left operand")
  | _ => .error (.host "TypeError" "argument of this type is not iterable")

/-- Python `<` on the modelled values: numbers (with bool coercion) and
strings; other orderings raise `TypeError` (list/tuple lexicographic
ordering is not modelled; no claim compares containers). -/
def pyLt (a b : Value) : Except PyErr Bool :=
  match asInt a, asInt b with
  | some x, some y => .ok (x < y)
  | _, _ =>
    match a, b with
    | .str x, .str y => .ok (strLtB x.data y.data)
    | _, _ => .error (.host "TypeError" "'<' not supported between the operand types")

/-- One pairwise comparison, shared verbatim by `evaluate_compare` and
the single-operator branch of `evaluate_condition` (both list the same
operator cases with the same host semantics). -/
def applyCmp : CmpOp → Value → Value → Except PyErr Bool
  | .eq, a, b => .ok (pyEq a b)
  | .ne, a, b => .ok (!pyEq a b)
  | .lt, a, b => pyLt a b
  | .le, a, b => do pure (!(← pyLt b a))
  | .gt, a, b => pyLt b a
  | .ge, a, b => do pure (!(← pyLt a b))
  | .inOp, a, b => pyIn a b
  | .notIn, a, b => do pure (!(← pyIn a b))

/-- The `evaluate_binop`'s host arithmetic on the modelled values. -/
def applyBinop : BinOpK → Value → Value → Except PyErr Value
  | .add, a, b =>
    match a, b with
    | .str x, .str y => .ok (.str (x ++ y))
    | .vlist x, .vlist y => .ok (.vlist (x ++ y))
    | .vtuple x, .vtuple y => .ok (.vtuple (x ++ y))
    | _, _ =>
      match asInt a, asInt b with
      | some x, some y => .ok (.int (x + y))
      | _, _ => .error (.host "TypeError" "unsupported operand type(s) for +")
  | .sub, a, b =>
      match asInt a, asInt b with
      | some x, some y => .ok (.int (x - y))
      | _, _ => .error (.host "TypeError" "unsupported operand type(s) for -")
  | .mult, a, b =>
      match asInt a, asInt b with
      | some x, some y => .ok (.int (x * y))
      | _, _ => .error (.host "TypeError" "unsupported operand type(s) for *")
  | .floorDiv, a, b =>
      match asInt a, asInt b with
      | some x, some y =>
          if y = 0 then .error (.host "ZeroDivisionError" "integer division or modulo by zero")
          else .ok (.int (Int.fdiv x y))
      | _, _ => .error (.host "TypeError" "unsupported operand type(s) for //")
  | .mod, a, b =>
      match asInt a, asInt b with
      | some x, some y =>
          if y = 0 then .error (.host "ZeroDivisionError" "integer division or modulo by zero")
          else .ok (.int (Int.fmod x y))
      | _, _ => .error (.host "TypeError" "unsupported operand type(s) for %")
  | .pow, a, b =>
      match asInt a, asInt b with
      | some x, some y =>
          if y < 0 then .error (.host "TypeError" "negative powers are not modelled")
          else .ok (.int (x ^ y.toNat))
      | _, _ => .error (.host "TypeError" "unsupported operand type(s) for **")

/-- The `evaluate_unaryop`'s host semantics. -/
def applyUnary : UOpK → Value → Except PyErr Value
  | .notOp, v => .ok (.bool (!truthy v))
  | .uadd, v =>
      match asInt v with
      | some x => .ok (.int x)
      | _ => .error (.host "TypeError" "bad operand type for unary +")
  | .usub, v =>
      match asInt v with
      | some x => .ok (.int (-x))
      | _ => .error (.host "TypeError" "bad operand type for unary -")
  | .invert, v =>
      match asInt v with
      | some x => .ok (.int (-x - 1))
      | _ => .error (.host "TypeError" "bad operand type for unary ~")

/-- Python `str()` of a value, as used in error messages (`raise` of a
non-exception value, assert messages). Containers and functions get
coarse renderings; no claim inspects those texts. -/
def pyStr : Value → String
  | .none => "None"
  | .int n => toString n
  | .bool b => if b then "True" else "False"
  | .str s => s
  | .vlist _ => "<list>"
  | .vtuple _ => "<tuple>"
  | .func fname _ _ _ _ => "<function " ++ fname ++ ">"
  | .hostFn n => "<tool " ++ n ++ ">"
  | .host h => "<host " ++ (match h with | .module n => n | .member b a => b ++ "." ++ a) ++ ">"

/-- The dotted path of a host object (used to key the ghost log and the
modelled host behaviour). -/
def hostPath : HostObj → String
  | .module n => n
  | .member b a => b ++ "." ++ a

/-- A coarse runtime-type tag, used as the reflection base for
`getattr` on non-host values. -/
def typeTag : Value → String
  | .none => "NoneType"
  | .int _ => "int"
  | .bool _ => "bool"
  | .str _ => "str"
  | .vlist _ => "list"
  | .vtuple _ => "tuple"
  | .func _ _ _ _ _ => "function"
  | .hostFn _ => "tool"
  | .host h => hostPath h

/-- The `getattr(obj, name)` as used by `evaluate_attribute` and the
attribute branch of `evaluate_call`: host reflection fetches any member
by name, always yielding a host object in the model. -/
def getattrVal : Value → String → Value
  | .host h, a => .host (.member (hostPath h) a)
  | v, a => .host (.member (typeTag v) a)

/-- Modelled behaviour of the caller-supplied host tools (and of host
methods reached by reflection): the tools the witnesses use. Every
invocation is additionally recorded in the ghost log. -/
def hostResult : String → List Value → Value
  | "sideEffectA", _ => .int 1
  | "sideEffectB", _ => .int 2
  | _, _ => .none

/-- The `evaluate_name`: exact lookup in the state, else the
`difflib.get_close_matches` fallback, else `InterpretorError`. (A pure
function of the environment: `evaluate_name` does not mutate.) -/
def evalNameR (id : String) (env : Env) : Except PyErr Value :=
  match List.lookup id env with
  | some v => .ok v
  | Option.none =>
    match getCloseMatches id (env.map Prod.fst) with
    | m :: _ =>
        match List.lookup m env with
        | some v => .ok v
        | Option.none => .error (.host "KeyError" m) -- unreachable: m is drawn from the keys
    | [] => .error (.interp ("The variable `" ++ id ++ "` is not defined."))

/-- The values a `for`-style iteration produces: lists, tuples and
strings (of 1-character strings). Dicts are outside the modelled value
union; other values are not iterable. -/
def toIterable : Value → Option (List Value)
  | .vlist xs => some xs
  | .vtuple xs => some xs
  | .str s => some (s.data.map fun c => .str (String.mk [c]))
  | _ => Option.none

/-! ## The evaluator

The recursion is organised as one fueled dispatcher `evalAst` (the
source's `evaluate_ast`) whose per-level work `evalStep` is a
non-recursive function over an abstract evaluator `ev` for the next
fuel level; all the loop-shaped handlers (`evaluate_if`'s body loop,
`evaluate_compare`'s chain, the function-body loop, ...) are ordinary
structurally recursive helpers over `ev`. Fuel therefore bounds only
the nesting/call depth, never the number of iterations, and every
definition reduces in the kernel. -/

/-- An evaluation result: the state always survives (Python dicts are
mutated in place even when an exception unwinds). -/
abbrev EvalRes := InterpState × Except PyErr Value

/-- The type of the recursive evaluator passed to the helpers:
node, current environment reference, state. -/
abbrev Evaluator := Ast → Nat → InterpState → EvalRes

/-- The list-comprehension-style evaluation of a list of expressions
(`[evaluate_ast(x) for x in ...]`), threading state left to right. -/
def evalListH (ev : Evaluator) : List Ast → Nat → InterpState →
    InterpState × Except PyErr (List Value)
  | [], _, st => (st, .ok [])
  | e :: rest, ρ, st =>
    match ev e ρ st with
    | (st', .ok v) =>
        match evalListH ev rest ρ st' with
        | (st'', .ok vs) => (st'', .ok (v :: vs))
        | (st'', .error er) => (st'', .error er)
    | (st', .error er) => (st', .error er)

/-- Keyword-argument evaluation (`{kw.arg: evaluate_ast(kw.value)}`). -/
def evalKwH (ev : Evaluator) : List (String × Ast) → Nat → InterpState →
    InterpState × Except PyErr (List (String × Value))
  | [], _, st => (st, .ok [])
  | (k, e) :: rest, ρ, st =>
    match ev e ρ st with
    | (st', .ok v) =>
        match evalKwH ev rest ρ st' with
        | (st'', .ok vs) => (st'', .ok ((k, v) :: vs))
        | (st'', .error er) => (st'', .error er)
    | (st', .error er) => (st', .error er)

/-- Plain statement sequencing that discards the statement results
(the try/except/finally bodies and the `__main__` block). -/
def seqH (ev : Evaluator) : List Ast → Nat → InterpState →
    InterpState × Except PyErr Unit
  | [], _, st => (st, .ok ())
  | e :: rest, ρ, st =>
    match ev e ρ st with
    | (st', .ok _) => seqH ev rest ρ st'
    | (st', .error er) => (st', .error er)

/-- Result-tracking statement sequencing: keep the last non-`None`
statement result (the top-level `evaluate` loop and `evaluate_if`). -/
def trackH (ev : Evaluator) : List Ast → Nat → InterpState → Value → EvalRes
  | [], _, st, acc => (st, .ok acc)
  | e :: rest, ρ, st, acc =>
    match ev e ρ st with
    | (st', .ok v) =>
        trackH ev rest ρ st' (match v with | .none => acc | _ => v)
    | (st', .error er) => (st', .error er)

/-- The function-body loop of the closure built by
`evaluate_function_def`: `result` is overwritten by *every* statement
(even a `None`-valued one) and the last value is returned — `return`
does not break the loop. An empty body would leave `result` unbound;
the parser cannot produce one.  -/
def funcBodyH (ev : Evaluator) : List Ast → Nat → InterpState → EvalRes
  | [], _, st =>
      (st, .error (.host "UnboundLocalError"
        "local variable 'result' referenced before assignment"))
  | [e], ρ, st => ev e ρ st
  | e :: rest, ρ, st =>
    match ev e ρ st with
    | (st', .ok _) => funcBodyH ev rest ρ st'
    | (st', .error er) => (st', .error er)

/-- The pairwise loop of `evaluate_compare`: evaluate each comparator,
apply the operator to the running `left`, collect the pairwise results
(combined by `all(...)` at the call site). -/
def chainH (ev : Evaluator) : Value → List (CmpOp × Ast) → Nat → InterpState →
    InterpState × Except PyErr (List Bool)
  | _, [], _, st => (st, .ok [])
  | left, (op, rE) :: rest, ρ, st =>
    match ev rE ρ st with
    | (st1, .ok right) =>
        match applyCmp op left right with
        | .ok b =>
            match chainH ev right rest ρ st1 with
            | (st2, .ok bs) => (st2, .ok (b :: bs))
            | (st2, .error er) => (st2, .error er)
        | .error er => (st1, .error er)
    | (st1, .error er) => (st1, .error er)

/-- Bind a comprehension target for one produced value
(`state[target.id] = value`, or the zip-based tuple unpacking — note
the zip truncates, unlike assignment's arity check). -/
def bindCompTarget (tgt : Target) (v : Value) (env : Env) : Except PyErr Env :=
  match tgt with
  | .one id => .ok (envSet env id v)
  | .tup ids =>
    match toIterable v with
    | some ws => .ok ((ids.zip ws).foldl (fun acc p => envSet acc p.1 p.2) env)
    | Option.none => .error (.host "TypeError" "cannot unpack non-iterable value")

/-- The iteration loop of the `ListComp` branch of the dispatcher:
bind the target *in the shared environment*, evaluate the element
expression, collect the results. -/
def compLoopH (ev : Evaluator) (tgt : Target) (elt : Ast) :
    List Value → Nat → InterpState → List Value →
    InterpState × Except PyErr (List Value)
  | [], _, st, acc => (st, .ok acc)
  | v :: vs, ρ, st, acc =>
    match bindCompTarget tgt v (stEnv st ρ) with
    | .error er => (st, .error er)
    | .ok env' =>
      let st1 := stSetEnv st ρ env'
      match ev elt ρ st1 with
      | (st2, .ok r) => compLoopH ev tgt elt vs ρ st2 (acc ++ [r])
      | (st2, .error er) => (st2, .error er)

/-- The handler scan of the `Try` branch: Python evaluates
`not handler.type or isinstance(e, handler.type)`, so a bare handler
runs its body and breaks, while *any* typed handler crashes with
`TypeError` (`handler.type` is an AST node, not a type) — later
handlers are unreachable either way. Returns whether the error was
handled. -/
def scanH (ev : Evaluator) : List (Option Ast × List Ast) → Nat → InterpState →
    InterpState × Except PyErr Bool
  | [], _, st => (st, .ok false)
  | (Option.none, hbody) :: _, ρ, st =>
    match seqH ev hbody ρ st with
    | (st', .ok ()) => (st', .ok true)
    | (st', .error er) => (st', .error er)
  | (some _, _) :: _, _, st =>
    (st, .error (.host "TypeError"
      "isinstance() arg 2 must be a type, a tuple of types, or a union"))

/-- The `evaluate_condition`: the second comparison path, used only for the
tests of `if` statements. Chained comparisons are rejected before any
evaluation; single comparisons share `applyCmp` with
`evaluate_compare`; `not` and generic truthiness close the cases. -/
def condH (ev : Evaluator) (c : Ast) (ρ : Nat) (st : InterpState) :
    InterpState × Except PyErr Bool :=
  match c with
  | .compare l pairs =>
    match pairs with
    | [(op, rE)] =>
      match ev l ρ st with
      | (st1, .ok lv) =>
        match ev rE ρ st1 with
        | (st2, .ok rv) =>
            match applyCmp op lv rv with
            | .ok b => (st2, .ok b)
            | .error er => (st2, .error er)
        | (st2, .error er) => (st2, .error er)
      | (st1, .error er) => (st1, .error er)
    | [] => (st, .error (.host "IndexError" "list index out of range"))
    | _ :: _ :: _ =>
        (st, .error (.interp "Cannot evaluate conditions with multiple operators"))
  | .unaryop .notOp e1 =>
    match ev e1 ρ st with
    | (st1, .ok v) => (st1, .ok (!truthy v))
    | (st1, .error er) => (st1, .error er)
  | _ =>
    match ev c ρ st with
    | (st1, .ok v) => (st1, .ok (truthy v))
    | (st1, .error er) => (st1, .error er)

/-- Overlay the keyword arguments onto the local environment, rejecting
names that are not parameters. -/
def applyKwargs (fname : String) (params : List String) :
    List (String × Value) → Env → Except PyErr Env
  | [], env => .ok env
  | (k, v) :: rest, env =>
    if params.contains k then applyKwargs fname params rest (envSet env k v)
    else .error (.interp ("Invalid keyword argument " ++ k ++ " for function " ++ fname ++ "."))

/-- Overlay defaults for the trailing parameters that are still absent
from the local environment (note: a same-named variable copied from the
enclosing scope suppresses the default, exactly as in the source's
`if param not in local_state`). -/
def applyDefaults (params : List String) (defaults : List Value) (env : Env) : Env :=
  ((params.drop (params.length - defaults.length)).zip defaults).foldl
    (fun acc p => if (List.lookup p.1 acc).isSome then acc else envSet acc p.1 p.2) env

/-- Invoke a callable value (the `method(*args, **kwargs)` call in
`evaluate_call`). For a user-defined function this is the closure from
`evaluate_function_def`: arity check, copy of the *definition-scope*
environment dict read at call time, positional/keyword/default overlay,
then the body loop in a freshly allocated environment. Host callables
return their modelled result and append to the ghost log. -/
def callValueH (ev : Evaluator) (callee : Value) (args : List Value)
    (kwargs : List (String × Value)) (st : InterpState) : EvalRes :=
  match callee with
  | .func fname params defaults body eref =>
    if args.length + kwargs.length < params.length - defaults.length
        ∨ args.length > params.length then
      (st, .error (.interp ("Invalid number of arguments for function " ++ fname ++ ".")))
    else
      let base := stEnv st eref
      let withPos := (params.zip args).foldl (fun acc p => envSet acc p.1 p.2) base
      match applyKwargs fname params kwargs withPos with
      | .error er => (st, .error er)
      | .ok withKw =>
        let localEnv := applyDefaults params defaults withKw
        let ρ' := st.heap.length
        let st' := { st with heap := st.heap ++ [localEnv] }
        funcBodyH ev body ρ' st'
  | .hostFn n =>
      ({ st with log := st.log ++ [(n, args)] }, .ok (hostResult n args))
  | .host h =>
      let p := hostPath h
      ({ st with log := st.log ++ [(p, args)] }, .ok (hostResult p args))
  | _ => (st, .error (.host "TypeError" "object is not callable"))

/-- The `evaluate_call`: resolve the target first — an attribute call goes
through reflection (`getattr`), a plain name must be in the *tool
registry* (the state is never consulted), anything else is rejected —
then evaluate positional and keyword arguments and invoke. -/
def evalCallH (ev : Evaluator) (fn : Ast) (args : List Ast)
    (kwargs : List (String × Ast)) (ρ : Nat) (st : InterpState) : EvalRes :=
  match fn with
  | .attribute base attr =>
    match ev base ρ st with
    | (st1, .ok obj) =>
      let m := getattrVal obj attr
      match evalListH ev args ρ st1 with
      | (st2, .ok argv) =>
        match evalKwH ev kwargs ρ st2 with
        | (st3, .ok kwv) => callValueH ev m argv kwv st3
        | (st3, .error er) => (st3, .error er)
      | (st2, .error er) => (st2, .error er)
    | (st1, .error er) => (st1, .error er)
  | .name id =>
    match List.lookup id st.tools with
    | Option.none =>
        (st, .error (.interp ("It is not permitted to evaluate other functions than the provided tools (tried to execute " ++ id ++ ").")))
    | some m =>
      match evalListH ev args ρ st with
      | (st2, .ok argv) =>
        match evalKwH ev kwargs ρ st2 with
        | (st3, .ok kwv) => callValueH ev m argv kwv st3
        | (st3, .error er) => (st3, .error er)
      | (st2, .error er) => (st2, .error er)
  | _ =>
      (st, .error (.interp "It is not permitted to evaluate other functions than the provided tools (unsupported call target)."))

/-- The `evaluate_assign`: evaluate the right-hand side, then bind a name
or unpack into a tuple of names (exact arity required); the assigned
value is the statement's result. (Subscript targets are outside the
modelled sub-language.) -/
def evalAssignH (ev : Evaluator) (tgt : Target) (value : Ast) (ρ : Nat)
    (st : InterpState) : EvalRes :=
  match ev value ρ st with
  | (st1, .error er) => (st1, .error er)
  | (st1, .ok result) =>
    match tgt with
    | .one id => (stSetEnv st1 ρ (envSet (stEnv st1 ρ) id result), .ok result)
    | .tup ids =>
      match result with
      | .vlist xs =>
        if ids.length = xs.length then
          (stSetEnv st1 ρ (((ids.zip xs).foldl (fun acc p => envSet acc p.1 p.2) (stEnv st1 ρ))), .ok result)
        else
          (st1, .error (.interp ("Expected " ++ toString ids.length ++ " values but got " ++ toString xs.length ++ ".")))
      | .vtuple xs =>
        if ids.length = xs.length then
          (stSetEnv st1 ρ (((ids.zip xs).foldl (fun acc p => envSet acc p.1 p.2) (stEnv st1 ρ))), .ok result)
        else
          (st1, .error (.interp ("Expected " ++ toString ids.length ++ " values but got " ++ toString xs.length ++ ".")))
      | _ => (st1, .error (.interp "Unsupported target type: Tuple"))

/-- The `finally` stage of the `Try` branch: run the `finally` suite
once from the given state; an error raised in it replaces the pending
outcome, otherwise the pending outcome stands. -/
def finallyH (ev : Evaluator) (finalbody : List Ast) (ρ : Nat)
    (stA : InterpState) (out : Except PyErr Value) : EvalRes :=
  match seqH ev finalbody ρ stA with
  | (stB, .ok ()) => (stB, out)
  | (stB, .error ef) => (stB, .error ef)

/-- The `Try` branch of the dispatcher: run the body; on an error run
the handler scan; the `finally` suite always runs exactly once
afterwards; an unhandled error re-raises after the `finally` suite.
The statement itself produces `None`. Fuel exhaustion is an artifact
and passes through untouched. -/
def tryH (ev : Evaluator) (body : List Ast) (handlers : List (Option Ast × List Ast))
    (finalbody : List Ast) (ρ : Nat) (st : InterpState) : EvalRes :=
  match seqH ev body ρ st with
  | (st1, .ok ()) => finallyH ev finalbody ρ st1 (.ok .none)
  | (st1, .error .fuelOut) => (st1, .error .fuelOut)
  | (st1, .error e) =>
    match scanH ev handlers ρ st1 with
    | (st2, .ok true) => finallyH ev finalbody ρ st2 (.ok .none)
    | (st2, .ok false) => finallyH ev finalbody ρ st2 (.error e)
    | (st2, .error .fuelOut) => (st2, .error .fuelOut)
    | (st2, .error e2) => finallyH ev finalbody ρ st2 (.error e2)

/-- One dispatch level of `evaluate_ast` over the evaluator `ev` for
the subterms. -/
def evalStep (ev : Evaluator) : Evaluator := fun e ρ st =>
  match e with
  | .assign tgt value => evalAssignH ev tgt value ρ st
  | .call fn args kwargs => evalCallH ev fn args kwargs ρ st
  | .constInt n => (st, .ok (.int n))
  | .constStr s => (st, .ok (.str s))
  | .constBool b => (st, .ok (.bool b))
  | .constNone => (st, .ok .none)
  | .ifStmt test body orelse =>
    -- the dispatcher special-cases `if __name__ == "__main__":` by shape
    -- (left operand and first comparator only; operators unchecked) and
    -- runs the body discarding results; everything else goes to
    -- `evaluate_if`.
    match test with
    | .compare (.name "__name__") ((_, .constStr "__main__") :: _) =>
      (match seqH ev body ρ st with
       | (st', .ok ()) => (st', .ok .none)
       | (st', .error er) => (st', .error er))
    | _ =>
      match condH ev test ρ st with
      | (st1, .ok b) =>
          if b then trackH ev body ρ st1 .none else trackH ev orelse ρ st1 .none
      | (st1, .error er) => (st1, .error er)
  | .list elts =>
    (match evalListH ev elts ρ st with
     | (st', .ok vs) => (st', .ok (.vlist vs))
     | (st', .error er) => (st', .error er))
  | .tuple elts =>
    (match evalListH ev elts ρ st with
     | (st', .ok vs) => (st', .ok (.vtuple vs))
     | (st', .error er) => (st', .error er))
  | .name id => (st, evalNameR id (stEnv st ρ))
  | .binop op l r =>
    (match ev l ρ st with
     | (st1, .ok lv) =>
       (match ev r ρ st1 with
        | (st2, .ok rv) =>
          (match applyBinop op lv rv with
           | .ok v => (st2, .ok v)
           | .error er => (st2, .error er))
        | (st2, .error er) => (st2, .error er))
     | (st1, .error er) => (st1, .error er))
  | .unaryop op e1 =>
    (match ev e1 ρ st with
     | (st1, .ok v) =>
       (match applyUnary op v with
        | .ok r => (st1, .ok r)
        | .error er => (st1, .error er))
     | (st1, .error er) => (st1, .error er))
  | .boolop op values =>
    -- `evaluate_boolop`: *all* operands are evaluated first, then
    -- combined by truthiness (`all`/`any`) — no short-circuiting.
    (match evalListH ev values ρ st with
     | (st', .ok vs) =>
       (st', .ok (.bool (match op with
         | .andOp => vs.all truthy
         | .orOp => vs.any truthy)))
     | (st', .error er) => (st', .error er))
  | .compare l pairs =>
    -- `evaluate_compare`: pairwise comparisons combined with `all`.
    (match ev l ρ st with
     | (st1, .ok lv) =>
       (match chainH ev lv pairs ρ st1 with
        | (st2, .ok bs) => (st2, .ok (.bool (bs.all id)))
        | (st2, .error er) => (st2, .error er))
     | (st1, .error er) => (st1, .error er))
  | .attribute base attr =>
    (match ev base ρ st with
     | (st1, .ok obj) => (st1, .ok (getattrVal obj attr))
     | (st1, .error er) => (st1, .error er))
  | .importStmt names =>
    -- `evaluate_import`: `state[alias.name] = __import__(alias.name)`.
    let env' := names.foldl (fun acc n => envSet acc n (.host (.module n))) (stEnv st ρ)
    (stSetEnv st ρ env', .ok .none)
  | .importFrom m names =>
    -- `evaluate_import_from`: `state[alias.name] = getattr(module, alias.name)`.
    let env' := names.foldl (fun acc n => envSet acc n (.host (.member m n))) (stEnv st ρ)
    (stSetEnv st ρ env', .ok .none)
  | .functionDef nm params defaults body =>
    -- `evaluate_function_def`: evaluate defaults now, build the closure
    -- capturing the *current environment dict*, store it in the state
    -- and the tool registry.
    (match evalListH ev defaults ρ st with
     | (st1, .ok dvals) =>
       let fval : Value := .func nm params dvals body ρ
       let st2 := stSetEnv st1 ρ (envSet (stEnv st1 ρ) nm fval)
       ({ st2 with tools := envSet st2.tools nm fval }, .ok .none)
     | (st1, .error er) => (st1, .error er))
  | .ret v =>
    -- `evaluate_return`: just the value; no control transfer.
    (match v with
     | some e1 => ev e1 ρ st
     | Option.none => (st, .ok .none))
  | .pass => (st, .ok .none)
  | .raiseStmt exc =>
    (match exc with
     | some e1 =>
       (match ev e1 ρ st with
        -- no `BaseException` instance is representable in the value
        -- union, so the raised value is always wrapped:
        -- `raise InterpretorError(f"{exception}")`.
        | (st1, .ok v) => (st1, .error (.interp (pyStr v)))
        | (st1, .error er) => (st1, .error er))
     | Option.none =>
        (st, .error (.interp "Raise statement without an exception is not supported.")))
  | .assertStmt t m =>
    (match ev t ρ st with
     | (st1, .ok v) =>
       if truthy v then (st1, .ok .none)
       else
         (match m with
          | some mE =>
            (match ev mE ρ st1 with
             | (st2, .ok mv) => (st2, .error (.assertFail (pyStr mv)))
             | (st2, .error er) => (st2, .error er))
          | Option.none => (st1, .error (.assertFail "Assertion failed")))
     | (st1, .error er) => (st1, .error er))
  | .tryStmt body handlers finalbody => tryH ev body handlers finalbody ρ st
  | .listComp elt tgt iterE =>
    (match ev iterE ρ st with
     | (st1, .ok itv) =>
       (match toIterable itv with
        | some vs =>
          (match compLoopH ev tgt elt vs ρ st1 [] with
           | (st2, .ok results) => (st2, .ok (.vlist results))
           | (st2, .error er) => (st2, .error er))
        | Option.none => (st1, .error (.host "TypeError" "object is not iterable")))
     | (st1, .error er) => (st1, .error er))

/-- The `evaluate_ast`, fueled on the nesting/call depth. -/
def evalAst : Nat → Evaluator
  | 0 => fun _ _ st => (st, .error .fuelOut)
  | fuel + 1 => evalStep (evalAst fuel)

/-- The entry point `evaluate(code, tools, state)`: run the top-level
statements against a single shared environment (heap cell 0), tracking
the last non-`None` statement result. Errors propagate (the source's
re-raise with line-number context changes only the message; line
numbers are diagnostic and not modelled). -/
def evalProgram (fuel : Nat) (prog : List Ast) (state0 : Env)
    (tools0 : List (String × Value)) : EvalRes :=
  trackH (evalAst fuel) prog 0 ⟨[state0], tools0, []⟩ .none

/-- The final shared top-level environment of a run. -/
def finalEnv (r : EvalRes) : Env := stEnv r.1 0

/-! ## Auxiliary notions used to state claims -/

/-- Levenshtein edit distance (fueled; the fuel `|a|+|b|+1` dominates
the recursion depth). Used only to state what "edit distance 1" means
in claim C8. -/
def editDistAux : Nat → List Char → List Char → Nat
  | 0, a, b => a.length + b.length
  | _ + 1, [], b => b.length
  | _ + 1, a, [] => a.length
  | fuel + 1, x :: xs, y :: ys =>
      if x = y then editDistAux fuel xs ys
      else 1 + min (editDistAux fuel xs (y :: ys))
               (min (editDistAux fuel (x :: xs) ys) (editDistAux fuel xs ys))

/-- Levenshtein edit distance between two strings. -/
def editDist (a b : String) : Nat :=
  editDistAux (a.length + b.length + 1) a.data b.data

/-- Does the tree contain an attribute-access node? (Fueled syntactic
check, used on concrete programs; the fuel dominates the tree depth.) -/
def hasAttrF : Nat → Ast → Bool
  | 0, _ => true
  | fuel + 1, e =>
    match e with
    | .attribute _ _ => true
    | .constInt _ | .constStr _ | .constBool _ | .constNone | .name _
    | .pass | .importStmt _ | .importFrom _ _ => false
    | .list es | .tuple es | .boolop _ es => es.any (hasAttrF fuel)
    | .binop _ l r => hasAttrF fuel l || hasAttrF fuel r
    | .unaryop _ e1 => hasAttrF fuel e1
    | .compare l ps => hasAttrF fuel l || ps.any (fun p => hasAttrF fuel p.2)
    | .call fn args kws =>
        hasAttrF fuel fn || args.any (hasAttrF fuel) || kws.any (fun p => hasAttrF fuel p.2)
    | .assign _ v => hasAttrF fuel v
    | .ifStmt t b o => hasAttrF fuel t || b.any (hasAttrF fuel) || o.any (hasAttrF fuel)
    | .functionDef _ _ ds b => ds.any (hasAttrF fuel) || b.any (hasAttrF fuel)
    | .ret v => (v.map (hasAttrF fuel)).getD false
    | .raiseStmt v => (v.map (hasAttrF fuel)).getD false
    | .assertStmt t m => hasAttrF fuel t || (m.map (hasAttrF fuel)).getD false
    | .tryStmt b hs fb =>
        b.any (hasAttrF fuel) || fb.any (hasAttrF fuel) ||
          hs.any (fun h => (h.1.map (hasAttrF fuel)).getD false || h.2.any (hasAttrF fuel))
    | .listComp elt _ it => hasAttrF fuel elt || hasAttrF fuel it

/-! ## Host-reachability predicates (claim C2)

`PureAst` marks the trees containing neither attribute access nor
an import form; `HostFreeV` marks values through which no opaque host
object is reachable (registry tools `hostFn` are the explicitly exposed
capabilities and count as host-free; a function value is host-free when
its defaults are and its stored body is pure). `StInv` extends this to
every environment dict and to the registry. -/

mutual
/-- Trees containing no `attribute`, `importStmt` or `importFrom`
node. -/
inductive PureAst : Ast → Prop where
  | constInt (n : Int) : PureAst (.constInt n)
  | constStr (s : String) : PureAst (.constStr s)
  | constBool (b : Bool) : PureAst (.constBool b)
  | constNone : PureAst .constNone
  | name (id : String) : PureAst (.name id)
  | list (es : List Ast) : (∀ e ∈ es, PureAst e) → PureAst (.list es)
  | tuple (es : List Ast) : (∀ e ∈ es, PureAst e) → PureAst (.tuple es)
  | binop (op : BinOpK) (l r : Ast) : PureAst l → PureAst r → PureAst (.binop op l r)
  | unaryop (op : UOpK) (e : Ast) : PureAst e → PureAst (.unaryop op e)
  | boolop (op : BOpK) (es : List Ast) : (∀ e ∈ es, PureAst e) → PureAst (.boolop op es)
  | compare (l : Ast) (ps : List (CmpOp × Ast)) :
      PureAst l → (∀ p ∈ ps, PureAst p.2) → PureAst (.compare l ps)
  | call (fn : Ast) (args : List Ast) (kws : List (String × Ast)) :
      PureAst fn → (∀ a ∈ args, PureAst a) → (∀ p ∈ kws, PureAst p.2) →
      PureAst (.call fn args kws)
  | assign (t : Target) (v : Ast) : PureAst v → PureAst (.assign t v)
  | ifStmt (t : Ast) (b o : List Ast) :
      PureAst t → (∀ e ∈ b, PureAst e) → (∀ e ∈ o, PureAst e) →
      PureAst (.ifStmt t b o)
  | functionDef (nm : String) (ps : List String) (ds : List Ast) (b : List Ast) :
      (∀ e ∈ ds, PureAst e) → (∀ e ∈ b, PureAst e) →
      PureAst (.functionDef nm ps ds b)
  | ret (v : Option Ast) : (∀ e, v = some e → PureAst e) → PureAst (.ret v)
  | pass : PureAst .pass
  | raiseStmt (v : Option Ast) : (∀ e, v = some e → PureAst e) → PureAst (.raiseStmt v)
  | assertStmt (t : Ast) (m : Option Ast) :
      PureAst t → (∀ e, m = some e → PureAst e) → PureAst (.assertStmt t m)
  | tryStmt (b : List Ast) (hs : List (Option Ast × List Ast)) (fb : List Ast) :
      (∀ e ∈ b, PureAst e) → (∀ h ∈ hs, ∀ e ∈ h.2, PureAst e) →
      (∀ e ∈ fb, PureAst e) → PureAst (.tryStmt b hs fb)
  | listComp (elt : Ast) (t : Target) (it : Ast) :
      PureAst elt → PureAst it → PureAst (.listComp elt t it)
end

/-- Values through which no opaque host object is reachable. -/
inductive HostFreeV : Value → Prop where
  | none : HostFreeV .none
  | int (n : Int) : HostFreeV (.int n)
  | bool (b : Bool) : HostFreeV (.bool b)
  | str (s : String) : HostFreeV (.str s)
  | vlist (xs : List Value) : (∀ v ∈ xs, HostFreeV v) → HostFreeV (.vlist xs)
  | vtuple (xs : List Value) : (∀ v ∈ xs, HostFreeV v) → HostFreeV (.vtuple xs)
  | func (fname : String) (params : List String) (defaults : List Value)
      (body : List Ast) (envRef : Nat) :
      (∀ v ∈ defaults, HostFreeV v) → (∀ e ∈ body, PureAst e) →
      HostFreeV (.func fname params defaults body envRef)
  | hostFn (n : String) : HostFreeV (.hostFn n)

/-- Every value in every environment dict and in the registry is
host-free. -/
def StInv (st : InterpState) : Prop :=
  (∀ env ∈ st.heap, ∀ kv ∈ env, HostFreeV kv.2) ∧ (∀ kv ∈ st.tools, HostFreeV kv.2)

/-! ## Frame agreement (claim C9) -/

/-- The heap entries other than `ρ` that existed in `st` survive
unchanged into `st'` (new entries may have been appended). -/
def FrameAgrees (st st' : InterpState) (ρ : Nat) : Prop :=
  st.heap.length ≤ st'.heap.length ∧
    ∀ i, i < st.heap.length → i ≠ ρ → st'.heap[i]? = st.heap[i]?

/-- All existing heap entries survive unchanged (the guarantee a
function call gives its caller). -/
def FrameAgreesAll (st st' : InterpState) : Prop :=
  st.heap.length ≤ st'.heap.length ∧
    ∀ i, i < st.heap.length → st'.heap[i]? = st.heap[i]?

/-! ## Concrete programs used by the claims -/

/-- The `def add(a, b): return a + b; log()` — a side-effecting tool call
placed after the `return` — followed by `r = add(2, 3)`. -/
def c1Prog : List Ast :=
  [ .functionDef "add" ["a", "b"] []
      [ .ret (some (.binop .add (.name "a") (.name "b"))),
        .call (.name "log") [] [] ],
    .assign (.one "r") (.call (.name "add") [.constInt 2, .constInt 3] []) ]

/-- The same function without the trailing statement. -/
def c1ProgClean : List Ast :=
  [ .functionDef "add" ["a", "b"] []
      [ .ret (some (.binop .add (.name "a") (.name "b"))) ],
    .assign (.one "r") (.call (.name "add") [.constInt 2, .constInt 3] []) ]

/-- The tool registry exposing the logging tool. -/
def c1Tools : List (String × Value) := [("log", .hostFn "log")]

/-- The `import os` — a program containing no attribute access. -/
def c2Prog : List Ast := [.importStmt ["os"]]

/-- A user-defined function value bound in the initial environment
(but not in the tool registry). -/
def c3Fval : Value := .func "f" [] [] [.ret (some (.constInt 7))] 0

/-- The `r = f()`. -/
def c3Prog : List Ast := [.assign (.one "r") (.call (.name "f") [] [])]

/-- The initial state binding `f` to the callable in the environment
only (empty tool registry). -/
def c3St : InterpState := ⟨[[("f", c3Fval)]], [], []⟩

/-- The chained comparison `1 < 2 < 3`. -/
def c4Chain : Ast := .compare (.constInt 1) [(.lt, .constInt 2), (.lt, .constInt 3)]

/-- The `1 < 2 < 3` as a standalone expression statement. -/
def c4ProgExpr : List Ast := [c4Chain]

/-- The `if 1 < 2 < 3: z = 1`. -/
def c4ProgIf : List Ast := [.ifStmt c4Chain [.assign (.one "z") (.constInt 1)] []]

/-- The `sideEffectA() or sideEffectB()` (the first operand is truthy). -/
def c5Prog : List Ast :=
  [.boolop .orOp [.call (.name "sideEffectA") [] [], .call (.name "sideEffectB") [] []]]

/-- The registry exposing both side-effecting tools. -/
def c5Tools : List (String × Value) :=
  [("sideEffectA", .hostFn "sideEffectA"), ("sideEffectB", .hostFn "sideEffectB")]

/-- The `try: raise 'boom'` with the *typed* handler
`except ValueError: x = 1`. -/
def c6ProgTyped : List Ast :=
  [.tryStmt [.raiseStmt (some (.constStr "boom"))]
    [(some (.name "ValueError"), [.assign (.one "x") (.constInt 1)])] []]

/-- The `try: raise 'boom'` with the *bare* handler `except: x = 1`. -/
def c6ProgBare : List Ast :=
  [.tryStmt [.raiseStmt (some (.constStr "boom"))]
    [(Option.none, [.assign (.one "x") (.constInt 1)])] []]

/-- The `n = n + 1` — the `finally` suite of the C7 programs. -/
def c7Inc : Ast := .assign (.one "n") (.binop .add (.name "n") (.constInt 1))

/-- The `n = 0; try: pass; finally: n = n + 1` — the body succeeds. -/
def c7Prog1 : List Ast :=
  [.assign (.one "n") (.constInt 0), .tryStmt [.pass] [] [c7Inc]]

/-- The `n = 0; try: raise 'b'; except: pass; finally: n = n + 1` — the
error is handled. -/
def c7Prog2 : List Ast :=
  [.assign (.one "n") (.constInt 0),
   .tryStmt [.raiseStmt (some (.constStr "b"))] [(Option.none, [.pass])] [c7Inc]]

/-- The `n = 0; try: raise 'b'; finally: n = n + 1` — the error is
unhandled and must propagate after the `finally` suite. -/
def c7Prog3 : List Ast :=
  [.assign (.one "n") (.constInt 0),
   .tryStmt [.raiseStmt (some (.constStr "b"))] [] [c7Inc]]

/-- A concrete state for the C7 witness: `n` bound to `0`. -/
def c7St : InterpState := ⟨[[("n", .int 0)]], [], []⟩

/-- An environment binding only `y` — at edit distance 1 of the
reference `x`. -/
def c8Env1 : Env := [("y", .int 5)]

/-- Two keys equally close to the reference `valu`, with `valua`
bound first. -/
def c8Env2 : Env := [("valua", .int 1), ("value", .int 2)]

/-- A single close key for the fuzzy-hit witness. -/
def c8Env3 : Env := [("count", .int 7)]

/-- The `def f(): return x` / `def g(): x = 42; return f()` / `r = g()`:
`x` is visible in the caller `g` but not in `f`'s definition scope. -/
def c9ProgNested : List Ast :=
  [ .functionDef "f" [] [] [.ret (some (.name "x"))],
    .functionDef "g" [] []
      [.assign (.one "x") (.constInt 42), .ret (some (.call (.name "f") [] []))],
    .assign (.one "r") (.call (.name "g") [] []) ]

/-- The `def f(): return x; x = 5; r = f()` — the definition-scope dict is
read at call time, so the later top-level `x = 5` is visible. -/
def c9ProgVis : List Ast :=
  [ .functionDef "f" [] [] [.ret (some (.name "x"))],
    .assign (.one "x") (.constInt 5),
    .assign (.one "r") (.call (.name "f") [] []) ]

/-- The `def f(): z = 1; return z; r = f()` — the body's binding `z` must
not escape to the caller. -/
def c9ProgLeak : List Ast :=
  [ .functionDef "f" [] [] [.assign (.one "z") (.constInt 1), .ret (some (.name "z"))],
    .assign (.one "r") (.call (.name "f") [] []) ]

/-- A function value and state for the C9 witness. -/
def c9Fval : Value := .func "f" ["a"] [] [.ret (some (.name "a"))] 0

/-- The state for the C9 witness: one existing environment. -/
def c9St : InterpState := ⟨[[("x", .int 3)]], [], []⟩

/-- Environment-wide host-freeness. -/
def EnvHF (env : Env) : Prop := ∀ kv ∈ env, HostFreeV kv.2

/-- Shorthand for the per-evaluator frame hypothesis. -/
def EvFrame (ev : Evaluator) : Prop :=
  ∀ (e : Ast) (ρ : Nat) (st : InterpState), FrameAgrees st (ev e ρ st).1 ρ

/-- The per-evaluator invariant: pure (attribute/import-free) nodes
preserve `StInv` and produce host-free values. -/
def EvInv (ev : Evaluator) : Prop :=
  ∀ (e : Ast) (ρ : Nat) (st : InterpState), PureAst e → StInv st →
    StInv (ev e ρ st).1 ∧ ∀ v, (ev e ρ st).2 = .ok v → HostFreeV v

/-! # Theorems -/

/-! ## Environment and state lemmas -/

theorem lookup_envSet_self (env : Env) (k : String) (v : Value) :
    List.lookup k (envSet env k v) = some v := by
  induction env with
  | nil => simp [envSet]
  | cons kv rest ih =>
      obtain ⟨k', v'⟩ := kv
      by_cases h : k' = k
      · subst h; simp [envSet]
      · have hbeq : (k == k') = false := beq_eq_false_iff_ne.mpr (Ne.symm h)
        simp [envSet, h, List.lookup, hbeq, ih]

theorem stEnv_stSetEnv_self {st : InterpState} {ρ : Nat} (e : Env)
    (h : ρ < st.heap.length) : stEnv (stSetEnv st ρ e) ρ = e := by
  simp [stEnv, stSetEnv, List.getD, List.getElem?_set_eq_of_lt _ h]

theorem stSetEnv_heap_length (st : InterpState) (ρ : Nat) (e : Env) :
    (stSetEnv st ρ e).heap.length = st.heap.length := by
  simp [stSetEnv]

/-- The `evalNameR` on an environment where the name was just bound. -/
theorem evalNameR_envSet_self (env : Env) (k : String) (v : Value) :
    evalNameR k (envSet env k v) = .ok v := by
  unfold evalNameR
  rw [lookup_envSet_self]

/-- Literal int lists evaluate to themselves. -/
theorem evalListH_constInts (g : Nat) (xs : List Int) (ρ : Nat) (st : InterpState) :
    evalListH (evalAst (g + 1)) (xs.map Ast.constInt) ρ st = (st, .ok (xs.map Value.int)) := by
  induction xs generalizing st with
  | nil => simp [evalListH]
  | cons x rest ih =>
      have ih' := ih st
      simp only [evalAst] at ih' ⊢
      simp [evalListH, evalStep, ih']

/-- The `Name` dispatch in one step. -/
theorem evalAst_name_step (f ρ : Nat) (id : String) (st : InterpState) :
    evalAst (f + 1) (.name id) ρ st = (st, evalNameR id (stEnv st ρ)) := by
  rw [evalAst]; rfl

/-- The comprehension loop with a plain-name target and the target
itself as element expression: every iteration rebinds the target in the
shared environment, so after the loop the target holds the last
iterated value; the produced list collects all iterated values. -/
theorem compLoop_name_binds (t : String) (g : Nat) (vs : List Value) :
    ∀ (w : Value) (acc : List Value) (ρ : Nat) (st : InterpState),
      ρ < st.heap.length →
      ∃ st', compLoopH (evalAst (g + 1)) (.one t) (.name t) (vs ++ [w]) ρ st acc
          = (st', .ok (acc ++ (vs ++ [w])))
        ∧ List.lookup t (stEnv st' ρ) = some w
        ∧ st'.heap.length = st.heap.length := by
  induction vs with
  | nil =>
      intro w acc ρ st hρ
      refine ⟨stSetEnv st ρ (envSet (stEnv st ρ) t w), ?_, ?_, ?_⟩
      · simp only [List.nil_append, compLoopH, bindCompTarget]
        rw [evalAst_name_step, stEnv_stSetEnv_self _ hρ, evalNameR_envSet_self]
      · rw [stEnv_stSetEnv_self _ hρ]; exact lookup_envSet_self _ _ _
      · exact stSetEnv_heap_length st ρ _
  | cons v rest ih =>
      intro w acc ρ st hρ
      have hρ1 : ρ < (stSetEnv st ρ (envSet (stEnv st ρ) t v)).heap.length := by
        rw [stSetEnv_heap_length]; exact hρ
      obtain ⟨st', heq, hl, hlen⟩ := ih w (acc ++ [v]) ρ _ hρ1
      refine ⟨st', ?_, hl, ?_⟩
      · simp only [List.cons_append, compLoopH, bindCompTarget]
        rw [evalAst_name_step, stEnv_stSetEnv_self _ hρ, evalNameR_envSet_self]
        simp [heq]
      · rw [hlen, stSetEnv_heap_length]

/-! ## Frame lemmas (claim C9)

Evaluation at environment reference `ρ` mutates only the dict behind
`ρ` and freshly allocated dicts: every other pre-existing heap entry
survives unchanged. In particular a function call (which runs its body
against a *fresh copy*) preserves every existing environment — the
formal content of "mutations inside the body do not escape". -/

theorem frame_refl (st : InterpState) (ρ : Nat) : FrameAgrees st st ρ :=
  ⟨le_refl _, fun _ _ _ => rfl⟩

theorem frame_trans {st1 st2 st3 : InterpState} {ρ : Nat}
    (h1 : FrameAgrees st1 st2 ρ) (h2 : FrameAgrees st2 st3 ρ) :
    FrameAgrees st1 st3 ρ :=
  ⟨le_trans h1.1 h2.1, fun i hi hne => by
    rw [h2.2 i (lt_of_lt_of_le hi h1.1) hne, h1.2 i hi hne]⟩

theorem frame_of_heap_eq {st st' : InterpState} (h : st'.heap = st.heap) (ρ : Nat) :
    FrameAgrees st st' ρ := ⟨by rw [h], fun i _ _ => by rw [h]⟩

theorem frame_stSetEnv (st : InterpState) (ρ : Nat) (e : Env) :
    FrameAgrees st (stSetEnv st ρ e) ρ := by
  refine ⟨by simp [stSetEnv], ?_⟩
  intro i hi hne
  simp [stSetEnv, List.getElem?_set_ne (Ne.symm hne)]

theorem frame_alloc (st : InterpState) (ρ : Nat) (e : Env) :
    FrameAgrees st { st with heap := st.heap ++ [e] } ρ := by
  refine ⟨by simp, ?_⟩
  intro i hi _
  simp [List.getElem?_append, hi]

theorem frameAll_refl (st : InterpState) : FrameAgreesAll st st :=
  ⟨le_refl _, fun _ _ => rfl⟩

theorem frameAll_of_heap_eq {st st' : InterpState} (h : st'.heap = st.heap) :
    FrameAgreesAll st st' := ⟨by rw [h], fun i _ => by rw [h]⟩

theorem frameAll_to_frame {st st' : InterpState} (h : FrameAgreesAll st st')
    (ρ : Nat) : FrameAgrees st st' ρ := ⟨h.1, fun i hi _ => h.2 i hi⟩

theorem frame_of_ev {ev : Evaluator} (Hev : EvFrame ev) {e : Ast} {ρ : Nat}
    {st st' : InterpState} {r : Except PyErr Value} (h : ev e ρ st = (st', r)) :
    FrameAgrees st st' ρ := by
  have := Hev e ρ st; rw [h] at this; exact this

theorem evalListH_frame {ev : Evaluator} (Hev : EvFrame ev) :
    ∀ (es : List Ast) (ρ : Nat) (st : InterpState),
      FrameAgrees st (evalListH ev es ρ st).1 ρ := by
  intro es
  induction es with
  | nil => intro ρ st; exact frame_refl st ρ
  | cons e rest ih =>
      intro ρ st
      unfold evalListH
      rcases h : ev e ρ st with ⟨st1, r1⟩
      have h1 := frame_of_ev Hev h
      cases r1 with
      | error er => exact h1
      | ok v =>
          dsimp only
          rcases h2 : evalListH ev rest ρ st1 with ⟨st2, r2⟩
          have h2' : FrameAgrees st1 st2 ρ := by
            have := ih ρ st1; rw [h2] at this; exact this
          cases r2 with
          | error er => exact frame_trans h1 h2'
          | ok vs => exact frame_trans h1 h2'

theorem evalKwH_frame {ev : Evaluator} (Hev : EvFrame ev) :
    ∀ (kws : List (String × Ast)) (ρ : Nat) (st : InterpState),
      FrameAgrees st (evalKwH ev kws ρ st).1 ρ := by
  intro kws
  induction kws with
  | nil => intro ρ st; exact frame_refl st ρ
  | cons kv rest ih =>
      intro ρ st
      obtain ⟨k, e⟩ := kv
      unfold evalKwH
      rcases h : ev e ρ st with ⟨st1, r1⟩
      have h1 := frame_of_ev Hev h
      cases r1 with
      | error er => exact h1
      | ok v =>
          dsimp only
          rcases h2 : evalKwH ev rest ρ st1 with ⟨st2, r2⟩
          have h2' : FrameAgrees st1 st2 ρ := by
            have := ih ρ st1; rw [h2] at this; exact this
          cases r2 with
          | error er => exact frame_trans h1 h2'
          | ok vs => exact frame_trans h1 h2'

theorem seqH_frame {ev : Evaluator} (Hev : EvFrame ev) :
    ∀ (es : List Ast) (ρ : Nat) (st : InterpState),
      FrameAgrees st (seqH ev es ρ st).1 ρ := by
  intro es
  induction es with
  | nil => intro ρ st; exact frame_refl st ρ
  | cons e rest ih =>
      intro ρ st
      unfold seqH
      rcases h : ev e ρ st with ⟨st1, r1⟩
      have h1 := frame_of_ev Hev h
      cases r1 with
      | error er => exact h1
      | ok v =>
          have := ih ρ st1
          exact frame_trans h1 this

theorem trackH_frame {ev : Evaluator} (Hev : EvFrame ev) :
    ∀ (es : List Ast) (ρ : Nat) (st : InterpState) (acc : Value),
      FrameAgrees st (trackH ev es ρ st acc).1 ρ := by
  intro es
  induction es with
  | nil => intro ρ st acc; exact frame_refl st ρ
  | cons e rest ih =>
      intro ρ st acc
      unfold trackH
      rcases h : ev e ρ st with ⟨st1, r1⟩
      have h1 := frame_of_ev Hev h
      cases r1 with
      | error er => exact h1
      | ok v => exact frame_trans h1 (ih ρ st1 _)

theorem funcBodyH_frame {ev : Evaluator} (Hev : EvFrame ev) :
    ∀ (es : List Ast) (ρ : Nat) (st : InterpState),
      FrameAgrees st (funcBodyH ev es ρ st).1 ρ := by
  intro es
  induction es with
  | nil => intro ρ st; exact frame_refl st ρ
  | cons e rest ih =>
      intro ρ st
      cases rest with
      | nil =>
          have := Hev e ρ st
          exact this
      | cons e2 rest2 =>
          unfold funcBodyH
          rcases h : ev e ρ st with ⟨st1, r1⟩
          have h1 := frame_of_ev Hev h
          cases r1 with
          | error er => exact h1
          | ok v => exact frame_trans h1 (ih ρ st1)

theorem chainH_frame {ev : Evaluator} (Hev : EvFrame ev) :
    ∀ (ps : List (CmpOp × Ast)) (left : Value) (ρ : Nat) (st : InterpState),
      FrameAgrees st (chainH ev left ps ρ st).1 ρ := by
  intro ps
  induction ps with
  | nil => intro left ρ st; exact frame_refl st ρ
  | cons p rest ih =>
      intro left ρ st
      obtain ⟨op, rE⟩ := p
      unfold chainH
      rcases h : ev rE ρ st with ⟨st1, r1⟩
      have h1 := frame_of_ev Hev h
      cases r1 with
      | error er => exact h1
      | ok right =>
          dsimp only
          cases hc : applyCmp op left right with
          | error er => exact h1
          | ok b =>
              dsimp only
              rcases h2 : chainH ev right rest ρ st1 with ⟨st2, r2⟩
              have h2' : FrameAgrees st1 st2 ρ := by
                have := ih right ρ st1; rw [h2] at this; exact this
              cases r2 with
              | error er => exact frame_trans h1 h2'
              | ok bs => exact frame_trans h1 h2'

theorem compLoopH_frame {ev : Evaluator} (Hev : EvFrame ev) (tgt : Target) (elt : Ast) :
    ∀ (vs : List Value) (ρ : Nat) (st : InterpState) (acc : List Value),
      FrameAgrees st (compLoopH ev tgt elt vs ρ st acc).1 ρ := by
  intro vs
  induction vs with
  | nil => intro ρ st acc; exact frame_refl st ρ
  | cons v rest ih =>
      intro ρ st acc
      unfold compLoopH
      cases hb : bindCompTarget tgt v (stEnv st ρ) with
      | error er => exact frame_refl st ρ
      | ok env' =>
          dsimp only
          have hset := frame_stSetEnv st ρ env'
          rcases h : ev elt ρ (stSetEnv st ρ env') with ⟨st2, r2⟩
          have h1 := frame_of_ev Hev h
          cases r2 with
          | error er => exact frame_trans hset h1
          | ok r =>
              dsimp only
              exact frame_trans hset (frame_trans h1 (ih ρ st2 _))

theorem scanH_frame {ev : Evaluator} (Hev : EvFrame ev) :
    ∀ (hs : List (Option Ast × List Ast)) (ρ : Nat) (st : InterpState),
      FrameAgrees st (scanH ev hs ρ st).1 ρ := by
  intro hs ρ st
  cases hs with
  | nil => exact frame_refl st ρ
  | cons h rest =>
      obtain ⟨ty, hbody⟩ := h
      cases ty with
      | none =>
          unfold scanH
          dsimp only
          rcases hq : seqH ev hbody ρ st with ⟨st1, r1⟩
          have h1 : FrameAgrees st st1 ρ := by
            have := seqH_frame Hev hbody ρ st; rw [hq] at this; exact this
          cases r1 with
          | error er => exact h1
          | ok u => exact h1
      | some ty' => exact frame_refl st ρ

theorem condH_default_frame {ev : Evaluator} (Hev : EvFrame ev) (c : Ast)
    (ρ : Nat) (st : InterpState)
    (hd : condH ev c ρ st =
      (match ev c ρ st with
       | (st1, .ok v) => (st1, .ok (truthy v))
       | (st1, .error er) => (st1, .error er))) :
    FrameAgrees st (condH ev c ρ st).1 ρ := by
  rw [hd]
  rcases h : ev c ρ st with ⟨st1, r1⟩
  have h1 := frame_of_ev Hev h
  cases r1 with
  | error er => exact h1
  | ok v => exact h1

theorem condH_frame {ev : Evaluator} (Hev : EvFrame ev) (c : Ast) (ρ : Nat)
    (st : InterpState) : FrameAgrees st (condH ev c ρ st).1 ρ := by
  cases c
  case compare l pairs =>
      cases pairs with
      | nil => exact frame_refl st ρ
      | cons p tail =>
          cases tail with
          | cons q rest => exact frame_refl st ρ
          | nil =>
              obtain ⟨op, rE⟩ := p
              unfold condH
              dsimp only
              rcases h : ev l ρ st with ⟨st1, r1⟩
              have h1 := frame_of_ev Hev h
              cases r1 with
              | error er => exact h1
              | ok lv =>
                  dsimp only
                  rcases h2 : ev rE ρ st1 with ⟨st2, r2⟩
                  have h2' := frame_of_ev Hev h2
                  cases r2 with
                  | error er => exact frame_trans h1 h2'
                  | ok rv =>
                      dsimp only
                      cases applyCmp op lv rv with
                      | error er => exact frame_trans h1 h2'
                      | ok b => exact frame_trans h1 h2'
  case unaryop op e1 =>
      cases op
      case notOp =>
          unfold condH
          dsimp only
          rcases h : ev e1 ρ st with ⟨st1, r1⟩
          have h1 := frame_of_ev Hev h
          cases r1 with
          | error er => exact h1
          | ok v => exact h1
      all_goals exact condH_default_frame Hev _ ρ st rfl
  all_goals exact condH_default_frame Hev _ ρ st rfl

theorem callValueH_frame {ev : Evaluator} (Hev : EvFrame ev) :
    ∀ (callee : Value) (args : List Value) (kwargs : List (String × Value))
      (st : InterpState), FrameAgreesAll st (callValueH ev callee args kwargs st).1 := by
  intro callee args kwargs st
  cases callee with
  | func fname params defaults body eref =>
      unfold callValueH
      dsimp only
      by_cases harity : args.length + kwargs.length < params.length - defaults.length
          ∨ args.length > params.length
      · rw [if_pos harity]; exact frameAll_refl st
      · rw [if_neg harity]
        cases hkw : applyKwargs fname params kwargs
            (List.foldl (fun acc p => envSet acc p.1 p.2) (stEnv st eref)
              (params.zip args)) with
        | error er => exact frameAll_refl st
        | ok withKw =>
            dsimp only
            have hbody := funcBodyH_frame Hev body st.heap.length
              { st with heap := st.heap ++ [applyDefaults params defaults withKw] }
            refine ⟨?_, ?_⟩
            · refine le_trans ?_ hbody.1
              simp
            · intro i hi
              have hlt : i < ({ st with
                  heap := st.heap ++ [applyDefaults params defaults withKw]
                    : InterpState }).heap.length := by
                simp
                omega
              have hne : i ≠ st.heap.length := Nat.ne_of_lt hi
              rw [hbody.2 i hlt hne]
              simp [List.getElem?_append, hi]
  | hostFn n => exact frameAll_of_heap_eq rfl
  | host h => exact frameAll_of_heap_eq rfl
  | none => exact frameAll_refl st
  | int n => exact frameAll_refl st
  | bool b => exact frameAll_refl st
  | str s => exact frameAll_refl st
  | vlist xs => exact frameAll_refl st
  | vtuple xs => exact frameAll_refl st

theorem evalCallH_frame {ev : Evaluator} (Hev : EvFrame ev) (fn : Ast)
    (args : List Ast) (kwargs : List (String × Ast)) (ρ : Nat) (st : InterpState) :
    FrameAgrees st (evalCallH ev fn args kwargs ρ st).1 ρ := by
  unfold evalCallH
  split
  · next base attr =>
      rcases h : ev base ρ st with ⟨st1, r1⟩
      have h1 := frame_of_ev Hev h
      cases r1 with
      | error er => exact h1
      | ok obj =>
          dsimp only
          rcases h2 : evalListH ev args ρ st1 with ⟨st2, r2⟩
          have h2' : FrameAgrees st1 st2 ρ := by
            have := evalListH_frame Hev args ρ st1; rw [h2] at this; exact this
          cases r2 with
          | error er => exact frame_trans h1 h2'
          | ok argv =>
              dsimp only
              rcases h3 : evalKwH ev kwargs ρ st2 with ⟨st3, r3⟩
              have h3' : FrameAgrees st2 st3 ρ := by
                have := evalKwH_frame Hev kwargs ρ st2; rw [h3] at this; exact this
              cases r3 with
              | error er => exact frame_trans h1 (frame_trans h2' h3')
              | ok kwv =>
                  have h4 := frameAll_to_frame
                    (callValueH_frame Hev (getattrVal obj attr) argv kwv st3) ρ
                  exact frame_trans h1 (frame_trans h2' (frame_trans h3' h4))
  · next id =>
      cases hm : List.lookup id st.tools with
      | none => exact frame_refl st ρ
      | some m =>
          rcases h2 : evalListH ev args ρ st with ⟨st2, r2⟩
          have h2' : FrameAgrees st st2 ρ := by
            have := evalListH_frame Hev args ρ st; rw [h2] at this; exact this
          cases r2 with
          | error er => exact h2'
          | ok argv =>
              dsimp only
              rcases h3 : evalKwH ev kwargs ρ st2 with ⟨st3, r3⟩
              have h3' : FrameAgrees st2 st3 ρ := by
                have := evalKwH_frame Hev kwargs ρ st2; rw [h3] at this; exact this
              cases r3 with
              | error er => exact frame_trans h2' h3'
              | ok kwv =>
                  have h4 := frameAll_to_frame (callValueH_frame Hev m argv kwv st3) ρ
                  exact frame_trans h2' (frame_trans h3' h4)
  · exact frame_refl st ρ

theorem evalAssignH_frame {ev : Evaluator} (Hev : EvFrame ev) (tgt : Target)
    (value : Ast) (ρ : Nat) (st : InterpState) :
    FrameAgrees st (evalAssignH ev tgt value ρ st).1 ρ := by
  unfold evalAssignH
  rcases h : ev value ρ st with ⟨st1, r1⟩
  have h1 := frame_of_ev Hev h
  cases r1 with
  | error er => exact h1
  | ok result =>
      cases tgt with
      | one id => exact frame_trans h1 (frame_stSetEnv st1 ρ _)
      | tup ids =>
          cases result with
          | vlist xs =>
              by_cases hlen : ids.length = xs.length
              · simp only [hlen, if_true]
                exact frame_trans h1 (frame_stSetEnv st1 ρ _)
              · simp only [hlen, if_false]
                exact h1
          | vtuple xs =>
              by_cases hlen : ids.length = xs.length
              · simp only [hlen, if_true]
                exact frame_trans h1 (frame_stSetEnv st1 ρ _)
              · simp only [hlen, if_false]
                exact h1
          | none => exact h1
          | int n => exact h1
          | bool b => exact h1
          | str s => exact h1
          | func a b c d e => exact h1
          | hostFn n => exact h1
          | host hh => exact h1

theorem finallyH_frame {ev : Evaluator} (Hev : EvFrame ev) (fb : List Ast) (ρ : Nat)
    (st : InterpState) (out : Except PyErr Value) :
    FrameAgrees st (finallyH ev fb ρ st out).1 ρ := by
  unfold finallyH
  rcases h : seqH ev fb ρ st with ⟨st1, r1⟩
  have h1 : FrameAgrees st st1 ρ := by
    have := seqH_frame Hev fb ρ st; rw [h] at this; exact this
  cases r1 with
  | error er => exact h1
  | ok u => exact h1

theorem tryH_eq_ok {ev : Evaluator} {b : List Ast} {ρ : Nat} {st st1 : InterpState}
    (hs : List (Option Ast × List Ast)) (fb : List Ast)
    (h : seqH ev b ρ st = (st1, .ok ())) :
    tryH ev b hs fb ρ st = finallyH ev fb ρ st1 (.ok .none) := by
  unfold tryH; rw [h]

theorem tryH_eq_err {ev : Evaluator} {b : List Ast} {ρ : Nat} {st st1 : InterpState}
    {e : PyErr} (hs : List (Option Ast × List Ast)) (fb : List Ast)
    (h : seqH ev b ρ st = (st1, .error e)) (hne : e ≠ .fuelOut) :
    tryH ev b hs fb ρ st =
      (match scanH ev hs ρ st1 with
       | (st2, .ok true) => finallyH ev fb ρ st2 (.ok .none)
       | (st2, .ok false) => finallyH ev fb ρ st2 (.error e)
       | (st2, .error .fuelOut) => (st2, .error .fuelOut)
       | (st2, .error e2) => finallyH ev fb ρ st2 (.error e2)) := by
  unfold tryH; rw [h]
  cases e with
  | fuelOut => exact absurd rfl hne
  | interp m => rfl
  | assertFail m => rfl
  | host k m => rfl

theorem tryH_frame {ev : Evaluator} (Hev : EvFrame ev) (b : List Ast)
    (hs : List (Option Ast × List Ast)) (fb : List Ast) (ρ : Nat) (st : InterpState) :
    FrameAgrees st (tryH ev b hs fb ρ st).1 ρ := by
  rcases h : seqH ev b ρ st with ⟨st1, r1⟩
  have h1 : FrameAgrees st st1 ρ := by
    have := seqH_frame Hev b ρ st; rw [h] at this; exact this
  cases r1 with
  | ok u =>
      cases u
      rw [tryH_eq_ok hs fb h]
      exact frame_trans h1 (finallyH_frame Hev fb ρ st1 _)
  | error e =>
      cases he : decide (e = .fuelOut) with
      | true =>
          have : e = .fuelOut := of_decide_eq_true he
          subst this
          unfold tryH
          rw [h]
          exact h1
      | false =>
          have hne : e ≠ .fuelOut := of_decide_eq_false he
          rw [tryH_eq_err hs fb h hne]
          rcases h2 : scanH ev hs ρ st1 with ⟨st2, r2⟩
          have h2' : FrameAgrees st1 st2 ρ := by
            have := scanH_frame Hev hs ρ st1; rw [h2] at this; exact this
          cases r2 with
          | ok handled =>
              cases handled <;>
                exact frame_trans h1 (frame_trans h2' (finallyH_frame Hev fb ρ st2 _))
          | error e2 =>
              cases e2 with
              | fuelOut => exact frame_trans h1 h2'
              | interp m2 =>
                  exact frame_trans h1 (frame_trans h2' (finallyH_frame Hev fb ρ st2 _))
              | assertFail m2 =>
                  exact frame_trans h1 (frame_trans h2' (finallyH_frame Hev fb ρ st2 _))
              | host k2 m2 =>
                  exact frame_trans h1 (frame_trans h2' (finallyH_frame Hev fb ρ st2 _))

/-! ## Host-reachability lemmas (claim C2)

An attribute-free, import-free program evaluated on a host-free state
can never produce or store a `Value.host`: the only constructs that
mint host objects are `attribute` (reflection), `importStmt` and
`importFrom`. -/

theorem hostResult_hf (n : String) (args : List Value) :
    HostFreeV (hostResult n args) := by
  unfold hostResult
  split
  · exact .int 1
  · exact .int 2
  · exact .none

theorem envSet_hf {env : Env} (he : EnvHF env) {v : Value} (hv : HostFreeV v)
    (k : String) : EnvHF (envSet env k v) := by
  induction env with
  | nil =>
      intro kv hkv
      simp only [envSet, List.mem_singleton] at hkv
      subst hkv; exact hv
  | cons kv' rest ih =>
      obtain ⟨k', v'⟩ := kv'
      intro kv hkv
      by_cases h : k' = k
      · subst h
        simp only [envSet, if_pos rfl] at hkv
        rcases List.mem_cons.mp hkv with h1 | h1
        · subst h1; exact hv
        · exact he _ (List.mem_cons_of_mem _ h1)
      · simp only [envSet, if_neg h] at hkv
        rcases List.mem_cons.mp hkv with h1 | h1
        · subst h1; exact he _ (List.mem_cons_self _ _)
        · exact ih (fun kv2 hkv2 => he _ (List.mem_cons_of_mem _ hkv2)) _ h1

theorem lookup_hf {env : Env} (he : EnvHF env) {k : String} {v : Value}
    (h : List.lookup k env = some v) : HostFreeV v := by
  induction env with
  | nil => simp [List.lookup] at h
  | cons kv rest ih =>
      obtain ⟨k', v'⟩ := kv
      rw [List.lookup] at h
      by_cases hk : k = k'
      · have hb : (k == k') = true := beq_iff_eq.mpr hk
        simp only [hb] at h
        cases h
        exact he _ (List.mem_cons_self _ _)
      · have hb : (k == k') = false := beq_eq_false_iff_ne.mpr hk
        simp only [hb] at h
        exact ih (fun kv2 hkv2 => he _ (List.mem_cons_of_mem _ hkv2)) h

theorem stInv_env {st : InterpState} (h : StInv st) (ρ : Nat) :
    EnvHF (stEnv st ρ) := by
  intro kv hkv
  unfold stEnv List.getD at hkv
  cases hq : st.heap.get? ρ with
  | none => rw [hq] at hkv; simp at hkv
  | some env =>
      rw [hq] at hkv
      have hq' : st.heap[ρ]? = some env := by rw [← List.get?_eq_getElem?]; exact hq
      exact h.1 env (List.getElem?_mem hq') kv hkv

theorem stInv_setEnv {st : InterpState} (h : StInv st) {e : Env} (he : EnvHF e)
    (ρ : Nat) : StInv (stSetEnv st ρ e) := by
  refine ⟨?_, h.2⟩
  intro env henv
  rcases List.mem_or_eq_of_mem_set henv with h1 | h1
  · exact h.1 env h1
  · subst h1; exact he

theorem stInv_alloc {st : InterpState} (h : StInv st) {e : Env} (he : EnvHF e) :
    StInv { st with heap := st.heap ++ [e] } := by
  refine ⟨?_, h.2⟩
  intro env henv
  rcases List.mem_append.mp henv with h1 | h1
  · exact h.1 env h1
  · rw [List.mem_singleton] at h1
    subst h1; exact he

theorem stInv_log {st : InterpState} (h : StInv st) (l : List (String × List Value)) :
    StInv { st with log := l } := ⟨h.1, h.2⟩

theorem stInv_tools {st : InterpState} (h : StInv st) {v : Value}
    (hv : HostFreeV v) (k : String) : StInv { st with tools := envSet st.tools k v } := by
  refine ⟨h.1, ?_⟩
  exact envSet_hf h.2 hv k

theorem tools_lookup_hf {st : InterpState} (h : StInv st) {k : String} {v : Value}
    (hl : List.lookup k st.tools = some v) : HostFreeV v :=
  lookup_hf h.2 hl

theorem toIterable_hf {v : Value} (hv : HostFreeV v) {vs : List Value}
    (h : toIterable v = some vs) : ∀ x ∈ vs, HostFreeV x := by
  cases v with
  | vlist xs =>
      cases h
      cases hv with | vlist _ hall => exact hall
  | vtuple xs =>
      cases h
      cases hv with | vtuple _ hall => exact hall
  | str s =>
      cases h
      intro x hx
      simp only [List.mem_map] at hx
      obtain ⟨c, _, hc⟩ := hx
      subst hc
      exact .str _
  | none => cases h
  | int n => cases h
  | bool b => cases h
  | func a b c d e => cases h
  | hostFn n => cases h
  | host hh => cases h

theorem applyBinop_hf {op : BinOpK} {a b v : Value} (ha : HostFreeV a)
    (hb : HostFreeV b) (h : applyBinop op a b = .ok v) : HostFreeV v := by
  cases op with
  | add =>
      unfold applyBinop at h
      cases a with
      | str x =>
          cases b with
          | str y => cases h; exact .str _
          | int n => simp [asInt] at h
          | bool bb => simp [asInt] at h
          | none => simp [asInt] at h
          | vlist xs => simp [asInt] at h
          | vtuple xs => simp [asInt] at h
          | func a b c d e => simp [asInt] at h
          | hostFn n => simp [asInt] at h
          | host hh => simp [asInt] at h
      | vlist x =>
          cases b with
          | vlist y =>
              cases h
              cases ha with | vlist _ hx =>
              cases hb with | vlist _ hy =>
              exact .vlist _ (fun w hw => (List.mem_append.mp hw).elim (hx w) (hy w))
          | str y => simp [asInt] at h
          | int n => simp [asInt] at h
          | bool bb => simp [asInt] at h
          | none => simp [asInt] at h
          | vtuple xs => simp [asInt] at h
          | func a b c d e => simp [asInt] at h
          | hostFn n => simp [asInt] at h
          | host hh => simp [asInt] at h
      | vtuple x =>
          cases b with
          | vtuple y =>
              cases h
              cases ha with | vtuple _ hx =>
              cases hb with | vtuple _ hy =>
              exact .vtuple _ (fun w hw => (List.mem_append.mp hw).elim (hx w) (hy w))
          | str y => simp [asInt] at h
          | int n => simp [asInt] at h
          | bool bb => simp [asInt] at h
          | none => simp [asInt] at h
          | vlist xs => simp [asInt] at h
          | func a b c d e => simp [asInt] at h
          | hostFn n => simp [asInt] at h
          | host hh => simp [asInt] at h
      | int x =>
          cases hab : asInt b with
          | none =>
              simp [asInt, hab] at h
              cases b <;> simp_all [asInt]
          | some y =>
              cases b <;> simp_all [asInt] <;> subst_eqs <;> exact .int _
      | bool x =>
          cases b <;> simp_all [asInt] <;> subst_eqs <;> exact .int _
      | none => cases b <;> simp_all [asInt]
      | func a1 b1 c1 d1 e1 => cases b <;> simp_all [asInt]
      | hostFn n => cases b <;> simp_all [asInt]
      | host hh => cases b <;> simp_all [asInt]
  | sub =>
      unfold applyBinop at h
      cases ha2 : asInt a <;> cases hb2 : asInt b <;> simp_all
      subst_eqs; exact .int _
  | mult =>
      unfold applyBinop at h
      cases ha2 : asInt a <;> cases hb2 : asInt b <;> simp_all
      subst_eqs; exact .int _
  | floorDiv =>
      unfold applyBinop at h
      cases ha2 : asInt a <;> cases hb2 : asInt b <;> simp_all
      split at h
      · cases h
      · cases h; exact .int _
  | mod =>
      unfold applyBinop at h
      cases ha2 : asInt a <;> cases hb2 : asInt b <;> simp_all
      split at h
      · cases h
      · cases h; exact .int _
  | pow =>
      unfold applyBinop at h
      cases ha2 : asInt a <;> cases hb2 : asInt b <;> simp_all
      split at h
      · cases h
      · cases h; exact .int _

theorem applyUnary_hf {op : UOpK} {a v : Value} (h : applyUnary op a = .ok v) :
    HostFreeV v := by
  cases op with
  | notOp => cases h; exact .bool _
  | uadd =>
      simp only [applyUnary] at h
      cases hA : asInt a with
      | none => rw [hA] at h; cases h
      | some x => rw [hA] at h; cases h; exact .int _
  | usub =>
      simp only [applyUnary] at h
      cases hA : asInt a with
      | none => rw [hA] at h; cases h
      | some x => rw [hA] at h; cases h; exact .int _
  | invert =>
      simp only [applyUnary] at h
      cases hA : asInt a with
      | none => rw [hA] at h; cases h
      | some x => rw [hA] at h; cases h; exact .int _

theorem foldl_envSet_hf {ps : List (String × Value)} {env : Env}
    (he : EnvHF env) (hp : ∀ p ∈ ps, HostFreeV p.2) :
    EnvHF (ps.foldl (fun acc p => envSet acc p.1 p.2) env) := by
  induction ps generalizing env with
  | nil => exact he
  | cons p rest ih =>
      simp only [List.foldl_cons]
      exact ih (envSet_hf he (hp p (List.mem_cons_self _ _)) p.1)
        (fun q hq => hp q (List.mem_cons_of_mem _ hq))

theorem applyKwargs_hf {fname : String} {params : List String}
    {kwargs : List (String × Value)} {env env' : Env} (he : EnvHF env)
    (hk : ∀ p ∈ kwargs, HostFreeV p.2)
    (h : applyKwargs fname params kwargs env = .ok env') : EnvHF env' := by
  induction kwargs generalizing env with
  | nil => cases h; exact he
  | cons p rest ih =>
      obtain ⟨k, v⟩ := p
      unfold applyKwargs at h
      split at h
      · exact ih (envSet_hf he (hk (k, v) (List.mem_cons_self _ _)) k)
          (fun q hq => hk q (List.mem_cons_of_mem _ hq)) h
      · cases h

theorem applyDefaults_hf {params : List String} {defaults : List Value}
    {env : Env} (he : EnvHF env) (hd : ∀ v ∈ defaults, HostFreeV v) :
    EnvHF (applyDefaults params defaults env) := by
  unfold applyDefaults
  have : ∀ (ps : List (String × Value)) (env : Env), EnvHF env →
      (∀ p ∈ ps, HostFreeV p.2) →
      EnvHF (ps.foldl
        (fun acc p => if (List.lookup p.1 acc).isSome then acc else envSet acc p.1 p.2) env) := by
    intro ps
    induction ps with
    | nil => intro env he2 _; exact he2
    | cons p rest ih =>
        intro env he2 hp
        simp only [List.foldl_cons]
        by_cases hs : (List.lookup p.1 env).isSome
        · rw [if_pos hs]
          exact ih env he2 (fun q hq => hp q (List.mem_cons_of_mem _ hq))
        · rw [if_neg hs]
          exact ih _ (envSet_hf he2 (hp p (List.mem_cons_self _ _)) p.1)
            (fun q hq => hp q (List.mem_cons_of_mem _ hq))
  refine this _ env he ?_
  intro p hp
  exact hd p.2 (List.of_mem_zip hp).2

theorem bindCompTarget_hf {tgt : Target} {v : Value} {env env' : Env}
    (he : EnvHF env) (hv : HostFreeV v)
    (h : bindCompTarget tgt v env = .ok env') : EnvHF env' := by
  cases tgt with
  | one id => cases h; exact envSet_hf he hv id
  | tup ids =>
      unfold bindCompTarget at h
      cases hit : toIterable v with
      | none => rw [hit] at h; cases h
      | some ws =>
          rw [hit] at h
          cases h
          exact foldl_envSet_hf he
            (fun p hp => toIterable_hf hv hit p.2 (List.of_mem_zip hp).2)

/-- Host-freeness of a name resolution out of a host-free
environment (both the exact and the fuzzy path return stored values). -/
theorem evalNameR_hf {env : Env} (he : EnvHF env) (id : String) :
    ∀ v, evalNameR id env = .ok v → HostFreeV v := by
  intro v h
  unfold evalNameR at h
  cases hl : List.lookup id env with
  | some w => rw [hl] at h; cases h; exact lookup_hf he hl
  | none =>
      rw [hl] at h
      cases hc : getCloseMatches id (env.map Prod.fst) with
      | nil => rw [hc] at h; cases h
      | cons m ms =>
          rw [hc] at h
          dsimp only at h
          cases hm : List.lookup m env with
          | some w => rw [hm] at h; cases h; exact lookup_hf he hm
          | none => rw [hm] at h; cases h

theorem inv_of_ev {ev : Evaluator} (Hev : EvInv ev) {e : Ast} {ρ : Nat}
    {st st' : InterpState} {r : Except PyErr Value} (hp : PureAst e) (hs : StInv st)
    (h : ev e ρ st = (st', r)) :
    StInv st' ∧ ∀ v, r = .ok v → HostFreeV v := by
  have := Hev e ρ st hp hs; rw [h] at this; exact this

theorem evalListH_inv {ev : Evaluator} (Hev : EvInv ev) :
    ∀ (es : List Ast) (ρ : Nat) (st : InterpState), (∀ e ∈ es, PureAst e) → StInv st →
      StInv (evalListH ev es ρ st).1 ∧
      ∀ vs, (evalListH ev es ρ st).2 = .ok vs → ∀ v ∈ vs, HostFreeV v := by
  intro es
  induction es with
  | nil =>
      intro ρ st _ hs
      exact ⟨hs, fun vs hvs v hv => by cases hvs; cases hv⟩
  | cons e rest ih =>
      intro ρ st hp hs
      unfold evalListH
      rcases h : ev e ρ st with ⟨st1, r1⟩
      obtain ⟨hs1, hv1⟩ := inv_of_ev Hev (hp e (List.mem_cons_self _ _)) hs h
      cases r1 with
      | error er => exact ⟨hs1, fun vs hvs => nomatch hvs⟩
      | ok v =>
          dsimp only
          rcases h2 : evalListH ev rest ρ st1 with ⟨st2, r2⟩
          have ih2 := ih ρ st1 (fun q hq => hp q (List.mem_cons_of_mem _ hq)) hs1
          rw [h2] at ih2
          cases r2 with
          | error er => exact ⟨ih2.1, fun vs hvs => nomatch hvs⟩
          | ok vs =>
              refine ⟨ih2.1, ?_⟩
              intro vs0 hvs0 w hw
              cases hvs0
              rcases List.mem_cons.mp hw with h1 | h1
              · subst h1; exact hv1 _ rfl
              · exact ih2.2 vs rfl w h1

theorem evalKwH_inv {ev : Evaluator} (Hev : EvInv ev) :
    ∀ (kws : List (String × Ast)) (ρ : Nat) (st : InterpState),
      (∀ p ∈ kws, PureAst p.2) → StInv st →
      StInv (evalKwH ev kws ρ st).1 ∧
      ∀ vs, (evalKwH ev kws ρ st).2 = .ok vs → ∀ p ∈ vs, HostFreeV p.2 := by
  intro kws
  induction kws with
  | nil =>
      intro ρ st _ hs
      exact ⟨hs, fun vs hvs p hp => by cases hvs; cases hp⟩
  | cons kv rest ih =>
      intro ρ st hp hs
      obtain ⟨k, e⟩ := kv
      unfold evalKwH
      rcases h : ev e ρ st with ⟨st1, r1⟩
      obtain ⟨hs1, hv1⟩ := inv_of_ev Hev (hp (k, e) (List.mem_cons_self _ _)) hs h
      cases r1 with
      | error er => exact ⟨hs1, fun vs hvs => nomatch hvs⟩
      | ok v =>
          dsimp only
          rcases h2 : evalKwH ev rest ρ st1 with ⟨st2, r2⟩
          have ih2 := ih ρ st1 (fun q hq => hp q (List.mem_cons_of_mem _ hq)) hs1
          rw [h2] at ih2
          cases r2 with
          | error er => exact ⟨ih2.1, fun vs hvs => nomatch hvs⟩
          | ok vs =>
              refine ⟨ih2.1, ?_⟩
              intro vs0 hvs0 p hw
              cases hvs0
              rcases List.mem_cons.mp hw with h1 | h1
              · subst h1; exact hv1 _ rfl
              · exact ih2.2 vs rfl p h1

theorem seqH_inv {ev : Evaluator} (Hev : EvInv ev) :
    ∀ (es : List Ast) (ρ : Nat) (st : InterpState), (∀ e ∈ es, PureAst e) → StInv st →
      StInv (seqH ev es ρ st).1 := by
  intro es
  induction es with
  | nil => intro ρ st _ hs; exact hs
  | cons e rest ih =>
      intro ρ st hp hs
      unfold seqH
      rcases h : ev e ρ st with ⟨st1, r1⟩
      obtain ⟨hs1, _⟩ := inv_of_ev Hev (hp e (List.mem_cons_self _ _)) hs h
      cases r1 with
      | error er => exact hs1
      | ok v => exact ih ρ st1 (fun q hq => hp q (List.mem_cons_of_mem _ hq)) hs1

theorem trackH_inv {ev : Evaluator} (Hev : EvInv ev) :
    ∀ (es : List Ast) (ρ : Nat) (st : InterpState) (acc : Value),
      (∀ e ∈ es, PureAst e) → StInv st → HostFreeV acc →
      StInv (trackH ev es ρ st acc).1 ∧
      ∀ v, (trackH ev es ρ st acc).2 = .ok v → HostFreeV v := by
  intro es
  induction es with
  | nil =>
      intro ρ st acc _ hs hacc
      exact ⟨hs, fun v hv => by cases hv; exact hacc⟩
  | cons e rest ih =>
      intro ρ st acc hp hs hacc
      unfold trackH
      rcases h : ev e ρ st with ⟨st1, r1⟩
      obtain ⟨hs1, hv1⟩ := inv_of_ev Hev (hp e (List.mem_cons_self _ _)) hs h
      cases r1 with
      | error er => exact ⟨hs1, fun v hv => nomatch hv⟩
      | ok v =>
          have hv := hv1 v rfl
          have hp' := fun q hq => hp q (List.mem_cons_of_mem e hq)
          cases v with
          | none => exact ih ρ st1 _ hp' hs1 hacc
          | int n => exact ih ρ st1 _ hp' hs1 hv
          | bool b => exact ih ρ st1 _ hp' hs1 hv
          | str s => exact ih ρ st1 _ hp' hs1 hv
          | vlist xs => exact ih ρ st1 _ hp' hs1 hv
          | vtuple xs => exact ih ρ st1 _ hp' hs1 hv
          | func a b c d e2 => exact ih ρ st1 _ hp' hs1 hv
          | hostFn n => exact ih ρ st1 _ hp' hs1 hv
          | host hh => exact ih ρ st1 _ hp' hs1 hv

theorem funcBodyH_inv {ev : Evaluator} (Hev : EvInv ev) :
    ∀ (es : List Ast) (ρ : Nat) (st : InterpState), (∀ e ∈ es, PureAst e) → StInv st →
      StInv (funcBodyH ev es ρ st).1 ∧
      ∀ v, (funcBodyH ev es ρ st).2 = .ok v → HostFreeV v := by
  intro es
  induction es with
  | nil => intro ρ st _ hs; exact ⟨hs, fun v hv => nomatch hv⟩
  | cons e rest ih =>
      intro ρ st hp hs
      cases rest with
      | nil => exact Hev e ρ st (hp e (List.mem_cons_self _ _)) hs
      | cons e2 rest2 =>
          unfold funcBodyH
          rcases h : ev e ρ st with ⟨st1, r1⟩
          obtain ⟨hs1, _⟩ := inv_of_ev Hev (hp e (List.mem_cons_self _ _)) hs h
          cases r1 with
          | error er => exact ⟨hs1, fun v hv => nomatch hv⟩
          | ok v => exact ih ρ st1 (fun q hq => hp q (List.mem_cons_of_mem _ hq)) hs1

theorem chainH_inv {ev : Evaluator} (Hev : EvInv ev) :
    ∀ (ps : List (CmpOp × Ast)) (left : Value) (ρ : Nat) (st : InterpState),
      (∀ p ∈ ps, PureAst p.2) → StInv st →
      StInv (chainH ev left ps ρ st).1 := by
  intro ps
  induction ps with
  | nil => intro left ρ st _ hs; exact hs
  | cons p rest ih =>
      intro left ρ st hp hs
      obtain ⟨op, rE⟩ := p
      unfold chainH
      rcases h : ev rE ρ st with ⟨st1, r1⟩
      obtain ⟨hs1, _⟩ := inv_of_ev Hev (hp (op, rE) (List.mem_cons_self _ _)) hs h
      cases r1 with
      | error er => exact hs1
      | ok right =>
          dsimp only
          cases applyCmp op left right with
          | error er => exact hs1
          | ok b =>
              dsimp only
              rcases h2 : chainH ev right rest ρ st1 with ⟨st2, r2⟩
              have ih2 := ih right ρ st1 (fun q hq => hp q (List.mem_cons_of_mem _ hq)) hs1
              rw [h2] at ih2
              cases r2 with
              | error er => exact ih2
              | ok bs => exact ih2

theorem compLoopH_inv {ev : Evaluator} (Hev : EvInv ev) (tgt : Target) (elt : Ast)
    (hpe : PureAst elt) :
    ∀ (vs : List Value) (ρ : Nat) (st : InterpState) (acc : List Value),
      StInv st → (∀ v ∈ vs, HostFreeV v) → (∀ a ∈ acc, HostFreeV a) →
      StInv (compLoopH ev tgt elt vs ρ st acc).1 ∧
      ∀ rs, (compLoopH ev tgt elt vs ρ st acc).2 = .ok rs → ∀ r ∈ rs, HostFreeV r := by
  intro vs
  induction vs with
  | nil =>
      intro ρ st acc hs _ hacc
      exact ⟨hs, fun rs hrs r hr => by cases hrs; exact hacc r hr⟩
  | cons v rest ih =>
      intro ρ st acc hs hvs hacc
      unfold compLoopH
      cases hb : bindCompTarget tgt v (stEnv st ρ) with
      | error er => exact ⟨hs, fun rs hrs => nomatch hrs⟩
      | ok env' =>
          dsimp only
          have henv' : EnvHF env' :=
            bindCompTarget_hf (stInv_env hs ρ) (hvs v (List.mem_cons_self _ _)) hb
          have hs1 : StInv (stSetEnv st ρ env') := stInv_setEnv hs henv' ρ
          rcases h : ev elt ρ (stSetEnv st ρ env') with ⟨st2, r2⟩
          obtain ⟨hs2, hv2⟩ := inv_of_ev Hev hpe hs1 h
          cases r2 with
          | error er => exact ⟨hs2, fun rs hrs => nomatch hrs⟩
          | ok r =>
              dsimp only
              refine ih ρ st2 _ hs2 (fun w hw => hvs w (List.mem_cons_of_mem _ hw)) ?_
              intro a ha
              rcases List.mem_append.mp ha with h1 | h1
              · exact hacc a h1
              · rw [List.mem_singleton] at h1; subst h1; exact hv2 _ rfl

theorem scanH_inv {ev : Evaluator} (Hev : EvInv ev) :
    ∀ (hs : List (Option Ast × List Ast)) (ρ : Nat) (st : InterpState),
      (∀ h ∈ hs, ∀ e ∈ h.2, PureAst e) → StInv st →
      StInv (scanH ev hs ρ st).1 := by
  intro hs ρ st hp hstinv
  cases hs with
  | nil => exact hstinv
  | cons h rest =>
      obtain ⟨ty, hbody⟩ := h
      cases ty with
      | none =>
          unfold scanH
          dsimp only
          rcases hq : seqH ev hbody ρ st with ⟨st1, r1⟩
          have h1 : StInv st1 := by
            have := seqH_inv Hev hbody ρ st
              (hp (Option.none, hbody) (List.mem_cons_self _ _)) hstinv
            rw [hq] at this; exact this
          cases r1 with
          | error er => exact h1
          | ok u => exact h1
      | some ty' => exact hstinv

theorem condH_default_inv {ev : Evaluator} (Hev : EvInv ev) (c : Ast)
    (ρ : Nat) (st : InterpState) (hp : PureAst c) (hs : StInv st)
    (hd : condH ev c ρ st =
      (match ev c ρ st with
       | (st1, .ok v) => (st1, .ok (truthy v))
       | (st1, .error er) => (st1, .error er))) :
    StInv (condH ev c ρ st).1 := by
  rw [hd]
  rcases h : ev c ρ st with ⟨st1, r1⟩
  obtain ⟨hs1, _⟩ := inv_of_ev Hev hp hs h
  cases r1 with
  | error er => exact hs1
  | ok v => exact hs1

theorem condH_inv {ev : Evaluator} (Hev : EvInv ev) (c : Ast) (ρ : Nat)
    (st : InterpState) (hp : PureAst c) (hs : StInv st) :
    StInv (condH ev c ρ st).1 := by
  cases c
  case compare l pairs =>
      have hl : PureAst l := by cases hp with | compare _ _ h1 _ => exact h1
      have hps : ∀ p ∈ pairs, PureAst p.2 := by
        cases hp with | compare _ _ _ h2 => exact h2
      cases pairs with
      | nil => exact hs
      | cons p tail =>
          cases tail with
          | cons q rest => exact hs
          | nil =>
              obtain ⟨op, rE⟩ := p
              unfold condH
              dsimp only
              rcases h : ev l ρ st with ⟨st1, r1⟩
              obtain ⟨hs1, _⟩ := inv_of_ev Hev hl hs h
              cases r1 with
              | error er => exact hs1
              | ok lv =>
                  dsimp only
                  rcases h2 : ev rE ρ st1 with ⟨st2, r2⟩
                  obtain ⟨hs2, _⟩ := inv_of_ev Hev
                    (hps (op, rE) (List.mem_cons_self _ _)) hs1 h2
                  cases r2 with
                  | error er => exact hs2
                  | ok rv =>
                      dsimp only
                      cases applyCmp op lv rv with
                      | error er => exact hs2
                      | ok b => exact hs2
  case unaryop op e1 =>
      have he1 : PureAst e1 := by cases hp with | unaryop _ _ h1 => exact h1
      cases op
      case notOp =>
          unfold condH
          dsimp only
          rcases h : ev e1 ρ st with ⟨st1, r1⟩
          obtain ⟨hs1, _⟩ := inv_of_ev Hev he1 hs h
          cases r1 with
          | error er => exact hs1
          | ok v => exact hs1
      all_goals exact condH_default_inv Hev _ ρ st hp hs rfl
  all_goals exact condH_default_inv Hev _ ρ st hp hs rfl

theorem callValueH_inv {ev : Evaluator} (Hev : EvInv ev) :
    ∀ (callee : Value) (args : List Value) (kwargs : List (String × Value))
      (st : InterpState), HostFreeV callee → (∀ a ∈ args, HostFreeV a) →
      (∀ p ∈ kwargs, HostFreeV p.2) → StInv st →
      StInv (callValueH ev callee args kwargs st).1 ∧
      ∀ v, (callValueH ev callee args kwargs st).2 = .ok v → HostFreeV v := by
  intro callee args kwargs st hc ha hk hs
  cases callee with
  | func fname params defaults body eref =>
      have hd : ∀ v ∈ defaults, HostFreeV v := by
        cases hc with | func _ _ _ _ _ h1 _ => exact h1
      have hb : ∀ e ∈ body, PureAst e := by
        cases hc with | func _ _ _ _ _ _ h2 => exact h2
      unfold callValueH
      dsimp only
      by_cases harity : args.length + kwargs.length < params.length - defaults.length
          ∨ args.length > params.length
      · rw [if_pos harity]; exact ⟨hs, fun v hv => nomatch hv⟩
      · rw [if_neg harity]
        have hbase : EnvHF (List.foldl (fun acc p => envSet acc p.1 p.2)
            (stEnv st eref) (params.zip args)) :=
          foldl_envSet_hf (stInv_env hs eref) (fun p hp => ha p.2 (List.of_mem_zip hp).2)
        cases hkw : applyKwargs fname params kwargs
            (List.foldl (fun acc p => envSet acc p.1 p.2) (stEnv st eref)
              (params.zip args)) with
        | error er => exact ⟨hs, fun v hv => nomatch hv⟩
        | ok withKw =>
            dsimp only
            have hkw' : EnvHF withKw := applyKwargs_hf hbase hk hkw
            have hloc : EnvHF (applyDefaults params defaults withKw) :=
              applyDefaults_hf hkw' hd
            have hsA : StInv { st with
                heap := st.heap ++ [applyDefaults params defaults withKw] } :=
              stInv_alloc hs hloc
            exact funcBodyH_inv Hev body st.heap.length _ hb hsA
  | hostFn n =>
      exact ⟨stInv_log hs _, fun v hv => by cases hv; exact hostResult_hf n args⟩
  | host hh => cases hc
  | none => exact ⟨hs, fun v hv => nomatch hv⟩
  | int n => exact ⟨hs, fun v hv => nomatch hv⟩
  | bool b => exact ⟨hs, fun v hv => nomatch hv⟩
  | str s => exact ⟨hs, fun v hv => nomatch hv⟩
  | vlist xs => exact ⟨hs, fun v hv => nomatch hv⟩
  | vtuple xs => exact ⟨hs, fun v hv => nomatch hv⟩

theorem evalCallH_inv {ev : Evaluator} (Hev : EvInv ev) (fn : Ast) (args : List Ast)
    (kwargs : List (String × Ast)) (ρ : Nat) (st : InterpState)
    (hfn : PureAst fn) (hargs : ∀ a ∈ args, PureAst a)
    (hkws : ∀ p ∈ kwargs, PureAst p.2) (hs : StInv st) :
    StInv (evalCallH ev fn args kwargs ρ st).1 ∧
    ∀ v, (evalCallH ev fn args kwargs ρ st).2 = .ok v → HostFreeV v := by
  cases hfn
  case name id =>
      unfold evalCallH
      dsimp only
      cases hm : List.lookup id st.tools with
      | none => exact ⟨hs, fun v hv => nomatch hv⟩
      | some m =>
          dsimp only
          have hmhf := tools_lookup_hf hs hm
          rcases h2 : evalListH ev args ρ st with ⟨st2, r2⟩
          have hl := evalListH_inv Hev args ρ st hargs hs
          rw [h2] at hl
          cases r2 with
          | error er => exact ⟨hl.1, fun v hv => nomatch hv⟩
          | ok argv =>
              dsimp only
              rcases h3 : evalKwH ev kwargs ρ st2 with ⟨st3, r3⟩
              have hkl := evalKwH_inv Hev kwargs ρ st2 hkws hl.1
              rw [h3] at hkl
              cases r3 with
              | error er => exact ⟨hkl.1, fun v hv => nomatch hv⟩
              | ok kwv =>
                  exact callValueH_inv Hev m argv kwv st3 hmhf
                    (hl.2 argv rfl) (hkl.2 kwv rfl) hkl.1
  all_goals exact ⟨hs, fun v hv => nomatch hv⟩

theorem evalAssignH_inv {ev : Evaluator} (Hev : EvInv ev) (tgt : Target)
    (value : Ast) (ρ : Nat) (st : InterpState) (hpv : PureAst value) (hs : StInv st) :
    StInv (evalAssignH ev tgt value ρ st).1 ∧
    ∀ v, (evalAssignH ev tgt value ρ st).2 = .ok v → HostFreeV v := by
  unfold evalAssignH
  rcases h : ev value ρ st with ⟨st1, r1⟩
  obtain ⟨hs1, hv1⟩ := inv_of_ev Hev hpv hs h
  cases r1 with
  | error er => exact ⟨hs1, fun v hv2 => nomatch hv2⟩
  | ok result =>
      dsimp only
      have hres := hv1 result rfl
      cases tgt with
      | one id =>
          exact ⟨stInv_setEnv hs1 (envSet_hf (stInv_env hs1 ρ) hres id) ρ,
                 fun v hv2 => by cases hv2; exact hres⟩
      | tup ids =>
          cases result with
          | vlist xs =>
              dsimp only
              have hxs : ∀ x ∈ xs, HostFreeV x := by
                cases hres with | vlist _ hh => exact hh
              by_cases hlen : ids.length = xs.length
              · rw [if_pos hlen]
                exact ⟨stInv_setEnv hs1 (foldl_envSet_hf (stInv_env hs1 ρ)
                        (fun p hp => hxs p.2 (List.of_mem_zip hp).2)) ρ,
                       fun v hv2 => by cases hv2; exact hres⟩
              · rw [if_neg hlen]
                exact ⟨hs1, fun v hv2 => nomatch hv2⟩
          | vtuple xs =>
              dsimp only
              have hxs : ∀ x ∈ xs, HostFreeV x := by
                cases hres with | vtuple _ hh => exact hh
              by_cases hlen : ids.length = xs.length
              · rw [if_pos hlen]
                exact ⟨stInv_setEnv hs1 (foldl_envSet_hf (stInv_env hs1 ρ)
                        (fun p hp => hxs p.2 (List.of_mem_zip hp).2)) ρ,
                       fun v hv2 => by cases hv2; exact hres⟩
              · rw [if_neg hlen]
                exact ⟨hs1, fun v hv2 => nomatch hv2⟩
          | none => exact ⟨hs1, fun v hv2 => nomatch hv2⟩
          | int n => exact ⟨hs1, fun v hv2 => nomatch hv2⟩
          | bool b => exact ⟨hs1, fun v hv2 => nomatch hv2⟩
          | str s => exact ⟨hs1, fun v hv2 => nomatch hv2⟩
          | func a b c d e2 => exact ⟨hs1, fun v hv2 => nomatch hv2⟩
          | hostFn n => exact ⟨hs1, fun v hv2 => nomatch hv2⟩
          | host hh2 => exact ⟨hs1, fun v hv2 => nomatch hv2⟩

theorem finallyH_inv {ev : Evaluator} (Hev : EvInv ev) (fb : List Ast) (ρ : Nat)
    (st : InterpState) (out : Except PyErr Value) (hfb : ∀ e ∈ fb, PureAst e)
    (hs : StInv st) (hout : ∀ v, out = .ok v → HostFreeV v) :
    StInv (finallyH ev fb ρ st out).1 ∧
    ∀ v, (finallyH ev fb ρ st out).2 = .ok v → HostFreeV v := by
  unfold finallyH
  rcases h : seqH ev fb ρ st with ⟨st1, r1⟩
  have hs1 : StInv st1 := by
    have := seqH_inv Hev fb ρ st hfb hs; rw [h] at this; exact this
  cases r1 with
  | ok u => exact ⟨hs1, hout⟩
  | error er => exact ⟨hs1, fun v hv => nomatch hv⟩

theorem tryH_inv {ev : Evaluator} (Hev : EvInv ev) (b : List Ast)
    (hs' : List (Option Ast × List Ast)) (fb : List Ast) (ρ : Nat)
    (st : InterpState) (hb : ∀ e ∈ b, PureAst e)
    (hh : ∀ h ∈ hs', ∀ e ∈ h.2, PureAst e) (hfb : ∀ e ∈ fb, PureAst e)
    (hstinv : StInv st) :
    StInv (tryH ev b hs' fb ρ st).1 ∧
    ∀ v, (tryH ev b hs' fb ρ st).2 = .ok v → HostFreeV v := by
  rcases h : seqH ev b ρ st with ⟨st1, r1⟩
  have hs1 : StInv st1 := by
    have := seqH_inv Hev b ρ st hb hstinv; rw [h] at this; exact this
  cases r1 with
  | ok u =>
      cases u
      rw [tryH_eq_ok hs' fb h]
      exact finallyH_inv Hev fb ρ st1 _ hfb hs1 (fun v hv => by cases hv; exact .none)
  | error e =>
      cases he : decide (e = .fuelOut) with
      | true =>
          have : e = .fuelOut := of_decide_eq_true he
          subst this
          unfold tryH
          rw [h]
          exact ⟨hs1, fun v hv => nomatch hv⟩
      | false =>
          have hne : e ≠ .fuelOut := of_decide_eq_false he
          rw [tryH_eq_err hs' fb h hne]
          rcases h2 : scanH ev hs' ρ st1 with ⟨st2, r2⟩
          have hs2 : StInv st2 := by
            have := scanH_inv Hev hs' ρ st1 hh hs1; rw [h2] at this; exact this
          cases r2 with
          | ok handled =>
              cases handled with
              | false => exact finallyH_inv Hev fb ρ st2 _ hfb hs2 (fun v hv => nomatch hv)
              | true =>
                  exact finallyH_inv Hev fb ρ st2 _ hfb hs2
                    (fun v hv => by cases hv; exact .none)
          | error e2 =>
              cases e2 with
              | fuelOut => exact ⟨hs2, fun v hv => nomatch hv⟩
              | interp m2 =>
                  exact finallyH_inv Hev fb ρ st2 _ hfb hs2 (fun v hv => nomatch hv)
              | assertFail m2 =>
                  exact finallyH_inv Hev fb ρ st2 _ hfb hs2 (fun v hv => nomatch hv)
              | host k2 m2 =>
                  exact finallyH_inv Hev fb ρ st2 _ hfb hs2 (fun v hv => nomatch hv)

/-- Host-freeness preservation for the whole dispatcher: evaluating an
attribute-free, import-free node on a host-free state yields a
host-free state and (on success) a host-free value — by induction on
the fuel, with one case per `PureAst` constructor. -/
theorem evalAst_inv : ∀ (f : Nat), EvInv (evalAst f) := by
  intro f
  induction f with
  | zero => intro e ρ st _ hs; exact ⟨hs, fun v hv => nomatch hv⟩
  | succ f ih =>
      intro e ρ st hp hs
      rw [evalAst]
      cases hp
      case constInt n => exact ⟨hs, fun v hv => by cases hv; exact .int n⟩
      case constStr s => exact ⟨hs, fun v hv => by cases hv; exact .str s⟩
      case constBool b => exact ⟨hs, fun v hv => by cases hv; exact .bool b⟩
      case constNone => exact ⟨hs, fun v hv => by cases hv; exact .none⟩
      case name id =>
          exact ⟨hs, fun v hv => evalNameR_hf (stInv_env hs ρ) id v hv⟩
      case list es hes =>
          simp only [evalStep]
          rcases hq : evalListH (evalAst f) es ρ st with ⟨st1, r1⟩
          have hl := evalListH_inv ih es ρ st hes hs
          rw [hq] at hl
          cases r1 with
          | error er => exact ⟨hl.1, fun v hv => nomatch hv⟩
          | ok vs =>
              exact ⟨hl.1, fun v hv => by cases hv; exact .vlist vs (hl.2 vs rfl)⟩
      case tuple es hes =>
          simp only [evalStep]
          rcases hq : evalListH (evalAst f) es ρ st with ⟨st1, r1⟩
          have hl := evalListH_inv ih es ρ st hes hs
          rw [hq] at hl
          cases r1 with
          | error er => exact ⟨hl.1, fun v hv => nomatch hv⟩
          | ok vs =>
              exact ⟨hl.1, fun v hv => by cases hv; exact .vtuple vs (hl.2 vs rfl)⟩
      case binop op l r hl hr =>
          simp only [evalStep]
          rcases h1 : evalAst f l ρ st with ⟨st1, r1⟩
          obtain ⟨hs1, hv1⟩ := inv_of_ev ih hl hs h1
          cases r1 with
          | error er => exact ⟨hs1, fun v hv => nomatch hv⟩
          | ok lv =>
              dsimp only
              rcases h2 : evalAst f r ρ st1 with ⟨st2, r2⟩
              obtain ⟨hs2, hv2⟩ := inv_of_ev ih hr hs1 h2
              cases r2 with
              | error er => exact ⟨hs2, fun v hv => nomatch hv⟩
              | ok rv =>
                  dsimp only
                  cases hb : applyBinop op lv rv with
                  | error er => exact ⟨hs2, fun v hv => nomatch hv⟩
                  | ok w =>
                      exact ⟨hs2, fun v hv => by
                        cases hv; exact applyBinop_hf (hv1 _ rfl) (hv2 _ rfl) hb⟩
      case unaryop op e1 he1 =>
          simp only [evalStep]
          rcases h1 : evalAst f e1 ρ st with ⟨st1, r1⟩
          obtain ⟨hs1, hv1⟩ := inv_of_ev ih he1 hs h1
          cases r1 with
          | error er => exact ⟨hs1, fun v hv => nomatch hv⟩
          | ok w =>
              dsimp only
              cases hu : applyUnary op w with
              | error er => exact ⟨hs1, fun v hv => nomatch hv⟩
              | ok u => exact ⟨hs1, fun v hv => by cases hv; exact applyUnary_hf hu⟩
      case boolop op es hes =>
          simp only [evalStep]
          rcases hq : evalListH (evalAst f) es ρ st with ⟨st1, r1⟩
          have hl := evalListH_inv ih es ρ st hes hs
          rw [hq] at hl
          cases r1 with
          | error er => exact ⟨hl.1, fun v hv => nomatch hv⟩
          | ok vs => exact ⟨hl.1, fun v hv => by cases hv; exact .bool _⟩
      case compare l ps hl hps =>
          simp only [evalStep]
          rcases h1 : evalAst f l ρ st with ⟨st1, r1⟩
          obtain ⟨hs1, _⟩ := inv_of_ev ih hl hs h1
          cases r1 with
          | error er => exact ⟨hs1, fun v hv => nomatch hv⟩
          | ok lv =>
              dsimp only
              rcases h2 : chainH (evalAst f) lv ps ρ st1 with ⟨st2, r2⟩
              have hc := chainH_inv ih ps lv ρ st1 hps hs1
              rw [h2] at hc
              cases r2 with
              | error er => exact ⟨hc, fun v hv => nomatch hv⟩
              | ok bs => exact ⟨hc, fun v hv => by cases hv; exact .bool _⟩
      case call fn args kws hfn hargs hkws =>
          exact evalCallH_inv ih fn args kws ρ st hfn hargs hkws hs
      case assign t v hpv => exact evalAssignH_inv ih t v ρ st hpv hs
      case ifStmt t b o ht hb ho =>
          simp only [evalStep]
          split
          · rcases hq : seqH (evalAst f) b ρ st with ⟨st1, r1⟩
            have hs1 : StInv st1 := by
              have := seqH_inv ih b ρ st hb hs; rw [hq] at this; exact this
            cases r1 with
            | error er => exact ⟨hs1, fun v hv => nomatch hv⟩
            | ok u => exact ⟨hs1, fun v hv => by cases hv; exact .none⟩
          · rcases hc : condH (evalAst f) t ρ st with ⟨st1, r1⟩
            have hs1 : StInv st1 := by
              have := condH_inv ih t ρ st ht hs; rw [hc] at this; exact this
            cases r1 with
            | error er => exact ⟨hs1, fun v hv => nomatch hv⟩
            | ok bb =>
                cases bb with
                | true =>
                    dsimp only
                    exact trackH_inv ih b ρ st1 .none hb hs1 .none
                | false =>
                    dsimp only
                    exact trackH_inv ih o ρ st1 .none ho hs1 .none
      case functionDef nm ps ds b hds hb =>
          simp only [evalStep]
          rcases hq : evalListH (evalAst f) ds ρ st with ⟨st1, r1⟩
          have hl := evalListH_inv ih ds ρ st hds hs
          rw [hq] at hl
          cases r1 with
          | error er => exact ⟨hl.1, fun v hv => nomatch hv⟩
          | ok dvals =>
              dsimp only
              have hfv : HostFreeV (Value.func nm ps dvals b ρ) :=
                .func nm ps dvals b ρ (hl.2 dvals rfl) hb
              refine ⟨?_, fun v hv => by cases hv; exact .none⟩
              exact stInv_tools (stInv_setEnv hl.1
                (envSet_hf (stInv_env hl.1 ρ) hfv nm) ρ) hfv nm
      case ret v hv' =>
          cases v with
          | none => exact ⟨hs, fun w hw => by cases hw; exact .none⟩
          | some e1 => exact ih e1 ρ st (hv' e1 rfl) hs
      case pass => exact ⟨hs, fun v hv => by cases hv; exact .none⟩
      case raiseStmt v hv' =>
          cases v with
          | none => exact ⟨hs, fun w hw => nomatch hw⟩
          | some e1 =>
              simp only [evalStep]
              rcases h1 : evalAst f e1 ρ st with ⟨st1, r1⟩
              obtain ⟨hs1, _⟩ := inv_of_ev ih (hv' e1 rfl) hs h1
              cases r1 with
              | error er => exact ⟨hs1, fun w hw => nomatch hw⟩
              | ok w => exact ⟨hs1, fun w2 hw2 => nomatch hw2⟩
      case assertStmt t m ht hm =>
          simp only [evalStep]
          rcases h1 : evalAst f t ρ st with ⟨st1, r1⟩
          obtain ⟨hs1, _⟩ := inv_of_ev ih ht hs h1
          cases r1 with
          | error er => exact ⟨hs1, fun v hv => nomatch hv⟩
          | ok w =>
              dsimp only
              cases truthy w with
              | true => exact ⟨hs1, fun v hv => by cases hv; exact .none⟩
              | false =>
                  cases m with
                  | none => exact ⟨hs1, fun v hv => nomatch hv⟩
                  | some mE =>
                      dsimp only
                      rcases h2 : evalAst f mE ρ st1 with ⟨st2, r2⟩
                      obtain ⟨hs2, _⟩ := inv_of_ev ih (hm mE rfl) hs1 h2
                      cases r2 with
                      | error er => exact ⟨hs2, fun v hv => nomatch hv⟩
                      | ok mv => exact ⟨hs2, fun v hv => nomatch hv⟩
      case tryStmt b hhs fb hb hh hfb =>
          exact tryH_inv ih b hhs fb ρ st hb hh hfb hs
      case listComp elt t it helt hit =>
          simp only [evalStep]
          rcases h1 : evalAst f it ρ st with ⟨st1, r1⟩
          obtain ⟨hs1, hv1⟩ := inv_of_ev ih hit hs h1
          cases r1 with
          | error er => exact ⟨hs1, fun v hv => nomatch hv⟩
          | ok itv =>
              dsimp only
              cases hti : toIterable itv with
              | none => exact ⟨hs1, fun v hv => nomatch hv⟩
              | some vs =>
                  dsimp only
                  rcases h2 : compLoopH (evalAst f) t elt vs ρ st1 [] with ⟨st2, r2⟩
                  have hcl := compLoopH_inv ih t elt helt vs ρ st1 [] hs1
                    (toIterable_hf (hv1 _ rfl) hti) (fun a ha => nomatch ha)
                  rw [h2] at hcl
                  cases r2 with
                  | error er => exact ⟨hcl.1, fun v hv => nomatch hv⟩
                  | ok results =>
                      exact ⟨hcl.1, fun v hv => by
                        cases hv; exact .vlist results (hcl.2 results rfl)⟩

/-- Frame preservation for the whole dispatcher: evaluating any node at
environment reference `ρ` leaves every other pre-existing environment
dict unchanged (by induction on the fuel, i.e. on the evaluation
depth). -/
theorem evalAst_frame : ∀ (f : Nat), EvFrame (evalAst f) := by
  intro f
  induction f with
  | zero => intro e ρ st; exact frame_refl st ρ
  | succ f ih =>
      intro e ρ st
      rw [evalAst]
      cases e
      -- constInt
      next n => exact frame_refl st ρ
      -- constStr
      next s => exact frame_refl st ρ
      -- constBool
      next b => exact frame_refl st ρ
      -- constNone
      case constNone => exact frame_refl st ρ
      -- name
      next id => exact frame_refl st ρ
      -- list
      next elts =>
          show FrameAgrees st ((match evalListH (evalAst f) elts ρ st with
            | (st', .ok vs) => (st', Except.ok (Value.vlist vs))
            | (st', .error er) => (st', .error er))).1 ρ
          rcases hq : evalListH (evalAst f) elts ρ st with ⟨st1, r1⟩
          have h1 : FrameAgrees st st1 ρ := by
            have := evalListH_frame ih elts ρ st; rw [hq] at this; exact this
          cases r1 with
          | error er => exact h1
          | ok vs => exact h1
      -- tuple
      next elts =>
          show FrameAgrees st ((match evalListH (evalAst f) elts ρ st with
            | (st', .ok vs) => (st', Except.ok (Value.vtuple vs))
            | (st', .error er) => (st', .error er))).1 ρ
          rcases hq : evalListH (evalAst f) elts ρ st with ⟨st1, r1⟩
          have h1 : FrameAgrees st st1 ρ := by
            have := evalListH_frame ih elts ρ st; rw [hq] at this; exact this
          cases r1 with
          | error er => exact h1
          | ok vs => exact h1
      -- binop
      next op l r =>
          show FrameAgrees st ((match evalAst f l ρ st with
            | (st1, .ok lv) =>
              (match evalAst f r ρ st1 with
               | (st2, .ok rv) =>
                 (match applyBinop op lv rv with
                  | .ok v => (st2, Except.ok v)
                  | .error er => (st2, .error er))
               | (st2, .error er) => (st2, .error er))
            | (st1, .error er) => (st1, .error er))).1 ρ
          rcases h : evalAst f l ρ st with ⟨st1, r1⟩
          have h1 := frame_of_ev ih h
          cases r1 with
          | error er => exact h1
          | ok lv =>
              dsimp only
              rcases h2 : evalAst f r ρ st1 with ⟨st2, r2⟩
              have h2' := frame_of_ev ih h2
              cases r2 with
              | error er => exact frame_trans h1 h2'
              | ok rv =>
                  dsimp only
                  cases applyBinop op lv rv with
                  | error er => exact frame_trans h1 h2'
                  | ok v => exact frame_trans h1 h2'
      -- unaryop
      next op e1 =>
          show FrameAgrees st ((match evalAst f e1 ρ st with
            | (st1, .ok v) =>
              (match applyUnary op v with
               | .ok r => (st1, Except.ok r)
               | .error er => (st1, .error er))
            | (st1, .error er) => (st1, .error er))).1 ρ
          rcases h : evalAst f e1 ρ st with ⟨st1, r1⟩
          have h1 := frame_of_ev ih h
          cases r1 with
          | error er => exact h1
          | ok v =>
              dsimp only
              cases applyUnary op v with
              | error er => exact h1
              | ok r => exact h1
      -- boolop
      next op values =>
          show FrameAgrees st ((match evalListH (evalAst f) values ρ st with
            | (st', .ok vs) =>
              (st', Except.ok (Value.bool (match op with
                | BOpK.andOp => vs.all truthy
                | BOpK.orOp => vs.any truthy)))
            | (st', .error er) => (st', .error er))).1 ρ
          rcases hq : evalListH (evalAst f) values ρ st with ⟨st1, r1⟩
          have h1 : FrameAgrees st st1 ρ := by
            have := evalListH_frame ih values ρ st; rw [hq] at this; exact this
          cases r1 with
          | error er => exact h1
          | ok vs => exact h1
      -- compare
      next l pairs =>
          show FrameAgrees st ((match evalAst f l ρ st with
            | (st1, .ok lv) =>
              (match chainH (evalAst f) lv pairs ρ st1 with
               | (st2, .ok bs) => (st2, Except.ok (Value.bool (bs.all id)))
               | (st2, .error er) => (st2, .error er))
            | (st1, .error er) => (st1, .error er))).1 ρ
          rcases h : evalAst f l ρ st with ⟨st1, r1⟩
          have h1 := frame_of_ev ih h
          cases r1 with
          | error er => exact h1
          | ok lv =>
              dsimp only
              rcases h2 : chainH (evalAst f) lv pairs ρ st1 with ⟨st2, r2⟩
              have h2' : FrameAgrees st1 st2 ρ := by
                have := chainH_frame ih pairs lv ρ st1; rw [h2] at this; exact this
              cases r2 with
              | error er => exact frame_trans h1 h2'
              | ok bs => exact frame_trans h1 h2'
      -- call
      next fn args kwargs => exact evalCallH_frame ih fn args kwargs ρ st
      -- attribute
      next base attr =>
          show FrameAgrees st ((match evalAst f base ρ st with
            | (st1, .ok obj) => (st1, Except.ok (getattrVal obj attr))
            | (st1, .error er) => (st1, .error er))).1 ρ
          rcases h : evalAst f base ρ st with ⟨st1, r1⟩
          have h1 := frame_of_ev ih h
          cases r1 with
          | error er => exact h1
          | ok obj => exact h1
      -- assign
      next tgt value => exact evalAssignH_frame ih tgt value ρ st
      -- ifStmt
      next test body orelse =>
          simp only [evalStep]
          split
          · rcases hq : seqH (evalAst f) body ρ st with ⟨st1, r1⟩
            have h1 : FrameAgrees st st1 ρ := by
              have := seqH_frame ih body ρ st; rw [hq] at this; exact this
            cases r1 with
            | error er => exact h1
            | ok u => exact h1
          · rcases hc : condH (evalAst f) test ρ st with ⟨st1, r1⟩
            have h1 : FrameAgrees st st1 ρ := by
              have := condH_frame ih test ρ st; rw [hc] at this; exact this
            cases r1 with
            | error er => exact h1
            | ok b =>
                cases b with
                | true =>
                    dsimp only
                    exact frame_trans h1 (trackH_frame ih body ρ st1 _)
                | false =>
                    dsimp only
                    exact frame_trans h1 (trackH_frame ih orelse ρ st1 _)
      -- importStmt
      next names => exact frame_stSetEnv st ρ _
      -- importFrom
      next m names => exact frame_stSetEnv st ρ _
      -- functionDef
      next nm params defaults body =>
          show FrameAgrees st ((match evalListH (evalAst f) defaults ρ st with
            | (st1, .ok dvals) =>
              ({ stSetEnv st1 ρ (envSet (stEnv st1 ρ) nm
                    (Value.func nm params dvals body ρ)) with
                 tools := envSet (stSetEnv st1 ρ (envSet (stEnv st1 ρ) nm
                    (Value.func nm params dvals body ρ))).tools nm
                    (Value.func nm params dvals body ρ) }, Except.ok Value.none)
            | (st1, .error er) => (st1, .error er))).1 ρ
          rcases hq : evalListH (evalAst f) defaults ρ st with ⟨st1, r1⟩
          have h1 : FrameAgrees st st1 ρ := by
            have := evalListH_frame ih defaults ρ st; rw [hq] at this; exact this
          cases r1 with
          | error er => exact h1
          | ok dvals =>
              refine frame_trans h1 (frame_trans (frame_stSetEnv st1 ρ _)
                (frame_of_heap_eq rfl ρ))
      -- ret
      next v =>
          cases v with
          | none => exact frame_refl st ρ
          | some e1 => exact ih e1 ρ st
      -- pass
      case pass => exact frame_refl st ρ
      -- raiseStmt
      next exc =>
          cases exc with
          | none => exact frame_refl st ρ
          | some e1 =>
              show FrameAgrees st ((match evalAst f e1 ρ st with
                | (st1, .ok v) => (st1, Except.error (PyErr.interp (pyStr v)))
                | (st1, .error er) => (st1, .error er))).1 ρ
              rcases h : evalAst f e1 ρ st with ⟨st1, r1⟩
              have h1 := frame_of_ev ih h
              cases r1 with
              | error er => exact h1
              | ok v => exact h1
      -- assertStmt
      next t m =>
          show FrameAgrees st ((match evalAst f t ρ st with
            | (st1, .ok v) =>
              if truthy v then (st1, Except.ok Value.none)
              else
                (match m with
                 | some mE =>
                   (match evalAst f mE ρ st1 with
                    | (st2, .ok mv) => (st2, Except.error (PyErr.assertFail (pyStr mv)))
                    | (st2, .error er) => (st2, .error er))
                 | Option.none => (st1, Except.error (PyErr.assertFail "Assertion failed")))
            | (st1, .error er) => (st1, .error er))).1 ρ
          rcases h : evalAst f t ρ st with ⟨st1, r1⟩
          have h1 := frame_of_ev ih h
          cases r1 with
          | error er => exact h1
          | ok v =>
              dsimp only
              cases truthy v with
              | true => exact h1
              | false =>
                  cases m with
                  | none => exact h1
                  | some mE =>
                      dsimp only
                      rcases h2 : evalAst f mE ρ st1 with ⟨st2, r2⟩
                      have h2' := frame_of_ev ih h2
                      cases r2 with
                      | error er => exact frame_trans h1 h2'
                      | ok mv => exact frame_trans h1 h2'
      -- tryStmt
      next body handlers finalbody => exact tryH_frame ih body handlers finalbody ρ st
      -- listComp
      next elt tgt iterE =>
          show FrameAgrees st ((match evalAst f iterE ρ st with
            | (st1, .ok itv) =>
              (match toIterable itv with
               | some vs =>
                 (match compLoopH (evalAst f) tgt elt vs ρ st1 [] with
                  | (st2, .ok results) => (st2, Except.ok (Value.vlist results))
                  | (st2, .error er) => (st2, .error er))
               | Option.none => (st1, Except.error (PyErr.host "TypeError" "object is not iterable")))
            | (st1, .error er) => (st1, .error er))).1 ρ
          rcases h : evalAst f iterE ρ st with ⟨st1, r1⟩
          have h1 := frame_of_ev ih h
          cases r1 with
          | error er => exact h1
          | ok itv =>
              dsimp only
              cases toIterable itv with
              | none => exact h1
              | some vs =>
                  dsimp only
                  rcases h2 : compLoopH (evalAst f) tgt elt vs ρ st1 [] with ⟨st2, r2⟩
                  have h2' : FrameAgrees st1 st2 ρ := by
                    have := compLoopH_frame ih tgt elt vs ρ st1 []
                    rw [h2] at this; exact this
                  cases r2 with
                  | error er => exact frame_trans h1 h2'
                  | ok results => exact frame_trans h1 h2'

/-! ## Claim theorems (continued) -/

/-- C5. Boolean `and`/`or` evaluate *every* operand eagerly: the
`BoolOp` branch first evaluates the whole operand list (`evalListH`, in
order, with all side effects) and only then combines the truthiness
values — no short-circuiting. The concrete conjuncts run
`sideEffectA() or sideEffectB()` with a truthy first operand: both
tools fire (the ghost log records both calls, in order) and the result
is `True`. -/
theorem claim5_boolop_eager (f : Nat) (op : BOpK) (es : List Ast) (ρ : Nat)
    (st : InterpState) :
    evalAst (f + 1) (.boolop op es) ρ st =
      (match evalListH (evalAst f) es ρ st with
       | (st', .ok vs) =>
           (st', .ok (.bool (match op with
             | .andOp => vs.all truthy
             | .orOp => vs.any truthy)))
       | (st', .error er) => (st', .error er))
  ∧ (evalProgram 50 c5Prog [] c5Tools).1.log = [("sideEffectA", []), ("sideEffectB", [])]
  ∧ (evalProgram 50 c5Prog [] c5Tools).2 = .ok (.bool true)
  ∧ truthy (hostResult "sideEffectA" []) = true :=
  ⟨rfl, rfl, rfl, rfl⟩

/-- C4 (amended). The two comparison paths: for a *single*
comparison the conditional-test evaluator `evaluate_condition` agrees
with the expression evaluator `evaluate_compare` (same operator
semantics, same state threading, modulo wrapping the boolean); for a
*chained* comparison (two or more operators) the conditional-test path
fails with `InterpretorError` before evaluating anything, while the
expression path combines the pairwise results with AND (`c4ProgExpr` /
`claim4_counterexample`). -/
theorem claim4_comparison_paths (f : Nat) (op : CmpOp) (l rE : Ast) (ρ : Nat)
    (st : InterpState) :
    (condH (evalAst f) (.compare l [(op, rE)]) ρ st
      = (match evalAst (f + 1) (.compare l [(op, rE)]) ρ st with
         | (st2, .ok v) => (st2, .ok (truthy v))
         | (st2, .error er) => (st2, .error er)))
  ∧ (∀ (p1 p2 : CmpOp × Ast) (ps : List (CmpOp × Ast)),
      condH (evalAst f) (.compare l (p1 :: p2 :: ps)) ρ st
        = (st, .error (.interp "Cannot evaluate conditions with multiple operators"))) := by
  constructor
  · rw [evalAst]
    simp only [evalStep, condH]
    rcases hval : evalAst f l ρ st with ⟨st1, er | lv⟩
    · rfl
    · simp only [chainH]
      rcases hr : evalAst f rE ρ st1 with ⟨st2, er2 | rv⟩
      · rfl
      · rcases hc : applyCmp op lv rv with er3 | b
        · simp [hc]
        · simp [hc, truthy]
  · intro p1 p2 ps
    rfl

/-- C3 (amended). A plain-name call target is resolved through the
tool registry *only*: if the name is absent from the registry the call
fails closed with the disallowed-call-target error without evaluating
any argument and regardless of any environment binding; if it is
present, the registered callable is invoked on the evaluated
arguments. (User-defined functions work as call targets because
`evaluate_function_def` inserts them into the registry as well.) -/
theorem claim3_calls_resolve_via_registry_only (f : Nat) (id : String)
    (args : List Ast) (kwargs : List (String × Ast)) (ρ : Nat) (st : InterpState) :
    (List.lookup id st.tools = Option.none →
      evalAst (f + 1) (.call (.name id) args kwargs) ρ st
        = (st, .error (.interp ("It is not permitted to evaluate other functions than the provided tools (tried to execute " ++ id ++ ")."))))
  ∧ (∀ m, List.lookup id st.tools = some m →
      evalAst (f + 1) (.call (.name id) args kwargs) ρ st
        = (match evalListH (evalAst f) args ρ st with
           | (st2, .ok argv) =>
             (match evalKwH (evalAst f) kwargs ρ st2 with
              | (st3, .ok kwv) => callValueH (evalAst f) m argv kwv st3
              | (st3, .error er) => (st3, .error er))
           | (st2, .error er) => (st2, .error er))) := by
  constructor
  · intro h
    rw [evalAst]
    simp only [evalStep, evalCallH, h]
  · intro m h
    rw [evalAst]
    simp only [evalStep, evalCallH, h]

/-- C3 (witness). A name absent from the (empty) registry fails
closed. -/
theorem claim3_witness :
    List.lookup "g" c3St.tools = Option.none
  ∧ evalAst 1 (.call (.name "g") [] []) 0 c3St
      = (c3St, .error (.interp "It is not permitted to evaluate other functions than the provided tools (tried to execute g).")) :=
  ⟨rfl, (claim3_calls_resolve_via_registry_only 0 "g" [] [] 0 c3St).1 rfl⟩

/-- C8 (amended). Name lookup: an exact hit wins; on a miss the
`difflib.get_close_matches` fallback (similarity ratio ≥ 0.6, best
ratio first, ratio ties to the lexicographically larger key — *not*
edit distance 1 and *not* insertion order) resolves to the head of the
candidate list when it is non-empty; otherwise the undefined-name
`InterpretorError` is raised. The `Name` dispatch applies exactly this
resolution to the current environment without mutating state. -/
theorem claim8_fuzzy_lookup (id : String) (env : Env) :
    (∀ v, List.lookup id env = some v → evalNameR id env = .ok v)
  ∧ (List.lookup id env = Option.none →
      (getCloseMatches id (env.map Prod.fst) = [] →
        evalNameR id env = .error (.interp ("The variable `" ++ id ++ "` is not defined.")))
      ∧ (∀ m ms v, getCloseMatches id (env.map Prod.fst) = m :: ms →
          List.lookup m env = some v → evalNameR id env = .ok v))
  ∧ (∀ (f ρ : Nat) (st : InterpState),
      evalAst (f + 1) (.name id) ρ st = (st, evalNameR id (stEnv st ρ))) := by
  refine ⟨?_, fun h => ⟨?_, ?_⟩, ?_⟩
  · intro v hv; unfold evalNameR; rw [hv]
  · intro hc; unfold evalNameR; rw [h, hc]
  · intro m ms v hc hm; unfold evalNameR; rw [h, hc]; dsimp only; rw [hm]
  · intro f ρ st; rw [evalAst]; rfl

/-- C8 (witness). `coun` misses exactly, fuzzily resolves to the
single close key `count`, and yields its value. -/
theorem claim8_witness :
    List.lookup "coun" c8Env3 = Option.none
  ∧ getCloseMatches "coun" (c8Env3.map Prod.fst) = ["count"]
  ∧ evalNameR "coun" c8Env3 = .ok (.int 7) :=
  ⟨rfl, rfl,
    ((claim8_fuzzy_lookup "coun" c8Env3).2.1 rfl).2 "count" [] (.int 7) rfl rfl⟩

/-- C7. A `try` statement's `finally` suite runs exactly once in
each of the three cases. General part: whatever the body and handler
phases produce, the `Try` dispatch ends in exactly one `finallyH` pass
over the `finally` suite — when the body succeeds, from the body's
final state with pending outcome `None`-success; when the body raises
and a handler handles it, from the handler's final state with pending
success; when no handler handles it, from the scan's final state with
the *original* error re-raised after the suite. Concrete part: in the
three `c7Prog*` programs the counter `n` incremented by the `finally`
suite ends at exactly 1, with the unhandled error still propagating in
the third. -/
theorem claim7_finally_exactly_once (f : Nat) (b : List Ast)
    (hs : List (Option Ast × List Ast)) (fb : List Ast) (ρ : Nat)
    (st st1 : InterpState) :
    ((seqH (evalAst f) b ρ st = (st1, .ok ()) →
        evalAst (f + 1) (.tryStmt b hs fb) ρ st
          = finallyH (evalAst f) fb ρ st1 (.ok .none))
      ∧ (∀ e st2, e ≠ .fuelOut → seqH (evalAst f) b ρ st = (st1, .error e) →
          (scanH (evalAst f) hs ρ st1 = (st2, .ok true) →
            evalAst (f + 1) (.tryStmt b hs fb) ρ st
              = finallyH (evalAst f) fb ρ st2 (.ok .none))
          ∧ (scanH (evalAst f) hs ρ st1 = (st2, .ok false) →
            evalAst (f + 1) (.tryStmt b hs fb) ρ st
              = finallyH (evalAst f) fb ρ st2 (.error e))))
  ∧ (List.lookup "n" (finalEnv (evalProgram 50 c7Prog1 [] [])) = some (.int 1)
      ∧ (evalProgram 50 c7Prog1 [] []).2 = .ok (.int 0))
  ∧ (List.lookup "n" (finalEnv (evalProgram 50 c7Prog2 [] [])) = some (.int 1)
      ∧ (evalProgram 50 c7Prog2 [] []).2 = .ok (.int 0))
  ∧ (List.lookup "n" (finalEnv (evalProgram 50 c7Prog3 [] [])) = some (.int 1)
      ∧ (evalProgram 50 c7Prog3 [] []).2 = .error (.interp "b")) := by
  refine ⟨⟨?_, ?_⟩, ⟨rfl, rfl⟩, ⟨rfl, rfl⟩, ⟨rfl, rfl⟩⟩
  · intro h
    rw [evalAst]
    simp only [evalStep, tryH, h]
  · intro e st2 hne h
    rw [evalAst]
    constructor
    · intro hscan
      simp only [evalStep, tryH, h]
      cases e with
      | fuelOut => exact absurd rfl hne
      | interp m => simp only [hscan]
      | assertFail m => simp only [hscan]
      | host k m => simp only [hscan]
    · intro hscan
      simp only [evalStep, tryH, h]
      cases e with
      | fuelOut => exact absurd rfl hne
      | interp m => simp only [hscan]
      | assertFail m => simp only [hscan]
      | host k m => simp only [hscan]

/-- C7 (witness). The general cases instantiated: a succeeding
body, and an unhandled error (no handlers) on the state binding
`n = 0`. -/
theorem claim7_witness :
    seqH (evalAst 49) [.pass] 0 c7St = (c7St, .ok ())
  ∧ evalAst 50 (.tryStmt [.pass] [] [c7Inc]) 0 c7St
      = finallyH (evalAst 49) [c7Inc] 0 c7St (.ok .none)
  ∧ seqH (evalAst 49) [.raiseStmt (some (.constStr "b"))] 0 c7St
      = (c7St, .error (.interp "b"))
  ∧ scanH (evalAst 49) [] 0 c7St = (c7St, .ok false)
  ∧ evalAst 50 (.tryStmt [.raiseStmt (some (.constStr "b"))] [] [c7Inc]) 0 c7St
      = finallyH (evalAst 49) [c7Inc] 0 c7St (.error (.interp "b")) :=
  ⟨rfl,
   (claim7_finally_exactly_once 49 [.pass] [] [c7Inc] 0 c7St c7St).1.1 rfl,
   rfl, rfl,
   ((claim7_finally_exactly_once 49 [.raiseStmt (some (.constStr "b"))] [] [c7Inc]
      0 c7St c7St).1.2 (.interp "b") c7St (by decide) rfl).2 rfl⟩

/-- C2 (amended). Attribute access *and module import* are the
only mechanisms by which a script reaches host values not explicitly
exposed through the tool registry or the initial environment. First
conjunct (noninterference): evaluating any attribute-free,
import-free node on a state whose environments and registry are
host-free preserves host-freeness of the state and of every produced
value — so no other construct can mint a host object. Second conjunct:
an import statement *does* bind a fresh opaque host module object into
the shared environment, which is exactly the second escape hatch the
original claim denies. -/
theorem claim2_escape_hatches (f : Nat) :
    (∀ (e : Ast) (ρ : Nat) (st : InterpState), PureAst e → StInv st →
        StInv (evalAst f e ρ st).1 ∧
        ∀ v, (evalAst f e ρ st).2 = .ok v → HostFreeV v)
  ∧ (∀ (n : String) (ρ : Nat) (st : InterpState) (g : Nat),
      evalAst (g + 1) (.importStmt [n]) ρ st
        = (stSetEnv st ρ (envSet (stEnv st ρ) n (.host (.module n))), .ok .none)) :=
  ⟨evalAst_inv f, fun n ρ st g => by rw [evalAst]; rfl⟩

/-- C2 (witness). The noninterference conjunct instantiated on a
concrete pure assignment and an empty one-environment state. -/
theorem claim2_witness :
    PureAst (Ast.assign (.one "a") (.constInt 1))
  ∧ StInv ⟨[[]], [], []⟩
  ∧ (StInv (evalAst 5 (.assign (.one "a") (.constInt 1)) 0 ⟨[[]], [], []⟩).1
     ∧ ∀ v, (evalAst 5 (.assign (.one "a") (.constInt 1)) 0 ⟨[[]], [], []⟩).2 = .ok v
         → HostFreeV v) := by
  have hp : PureAst (Ast.assign (.one "a") (.constInt 1)) :=
    .assign _ _ (.constInt 1)
  have hs : StInv ⟨[[]], [], []⟩ := by
    constructor
    · intro env henv kv hkv
      simp only [List.mem_singleton] at henv
      subst henv
      cases hkv
    · intro kv hkv
      cases hkv
  exact ⟨hp, hs, (claim2_escape_hatches 5).1 _ 0 _ hp hs⟩

/-- C9 (amended). A call to a user-defined function runs the body
in a *fresh copy* of the environment dict captured at the function's
definition site (read at call time, overlaid with the arguments); the
general conjunct shows every pre-existing environment — in particular
the caller's — survives any call unchanged (`FrameAgreesAll`), so no
binding created or reassigned inside the body escapes. The concrete
conjuncts show the definition-scope dict is read at call time
(`c9ProgVis`: `x = 5` assigned after the `def` is visible, `r = 5`)
and that body bindings do not leak (`c9ProgLeak`: `z` unbound at top
level afterwards while `r = 1`). -/
theorem claim9_call_private_frame (f : Nat) :
    (∀ (callee : Value) (args : List Value) (kwargs : List (String × Value))
        (st : InterpState),
        FrameAgreesAll st (callValueH (evalAst f) callee args kwargs st).1)
  ∧ List.lookup "r" (finalEnv (evalProgram 50 c9ProgVis [] [])) = some (.int 5)
  ∧ (List.lookup "z" (finalEnv (evalProgram 50 c9ProgLeak [] [])) = Option.none
      ∧ List.lookup "r" (finalEnv (evalProgram 50 c9ProgLeak [] [])) = some (.int 1)) :=
  ⟨fun callee args kwargs st => callValueH_frame (evalAst_frame f) callee args kwargs st,
   rfl, rfl, rfl⟩

/-- C9 (witness). Calling `f(7)` (body `return a`) on a state with
one existing environment: the caller's heap entry 0 is untouched and
the call returns 7. -/
theorem claim9_witness :
    (callValueH (evalAst 49) c9Fval [.int 7] [] c9St).1.heap[0]? = c9St.heap[0]?
  ∧ (callValueH (evalAst 49) c9Fval [.int 7] [] c9St).2 = .ok (.int 7) :=
  ⟨((claim9_call_private_frame 49).1 c9Fval [.int 7] [] c9St).2 0 (by decide),
   rfl⟩

/-- C10. A single-generator list comprehension binds its target
directly in the enclosing shared environment: over any non-empty
literal int list, the comprehension `[t for t in [...]]` yields the
iterated values, and afterwards the target name remains bound in the
*same* environment to the last iterated value (no comprehension
scope). -/
theorem claim10_listcomp_binds_shared_env (g : Nat) (t : String) (pre : List Int)
    (lastv : Int) (ρ : Nat) (st : InterpState) (hρ : ρ < st.heap.length) :
    ∃ st', evalAst (g + 3)
        (.listComp (.name t) (.one t) (.list ((pre ++ [lastv]).map Ast.constInt))) ρ st
      = (st', .ok (.vlist ((pre ++ [lastv]).map Value.int)))
    ∧ List.lookup t (stEnv st' ρ) = some (.int lastv)
    ∧ st'.heap.length = st.heap.length := by
  obtain ⟨st', heq, hl, hlen⟩ :=
    compLoop_name_binds t (g + 1) (pre.map Value.int) (.int lastv) [] ρ st hρ
  refine ⟨st', ?_, hl, hlen⟩
  have h21 : g + 2 = (g + 1) + 1 := rfl
  have hiter : evalAst (g + 2) (.list ((pre ++ [lastv]).map Ast.constInt)) ρ st
      = (st, .ok (.vlist ((pre ++ [lastv]).map Value.int))) := by
    rw [h21, evalAst]
    simp only [evalStep]
    rw [evalListH_constInts]
  rw [show g + 3 = (g + 2) + 1 from rfl, evalAst]
  simp only [evalStep]
  rw [hiter]
  dsimp only
  simp only [toIterable]
  rw [List.map_append]
  simp only [List.map_cons, List.map_nil]
  rw [h21, heq]
  simp

/-- C10 (witness). `[v for v in [1, 2, 3]]` evaluated in a
one-environment state yields `[1, 2, 3]` and leaves `v = 3` in the
shared environment. -/
theorem claim10_witness :
    (0 : Nat) < 1
  ∧ ∃ st', evalAst 50 (.listComp (.name "v") (.one "v")
        (.list [.constInt 1, .constInt 2, .constInt 3])) 0 ⟨[[]], [], []⟩
      = (st', .ok (.vlist [.int 1, .int 2, .int 3]))
    ∧ List.lookup "v" (stEnv st' 0) = some (.int 3)
    ∧ st'.heap.length = 1 :=
  ⟨by decide, claim10_listcomp_binds_shared_env 47 "v" [1, 2] 3 0 ⟨[[]], [], []⟩ (by decide)⟩

/-- C1. The claim says a function body stops at the first executed
`return` and the call yields that value (`add(2, 3) = 5`, the
side-effecting statement after the return not executed). The code
instead runs the body loop to the end (`result` is overwritten by every
statement): on `c1Prog` the call runs the post-`return` tool call
(ghost log records it) and `r` receives the *last* statement's value
`None`, not `5`. Without the trailing statement the call does return
`5`, isolating the defect to the missing control transfer. -/
theorem claim1_return_does_not_stop_body :
    List.lookup "r" (finalEnv (evalProgram 50 c1Prog [] c1Tools)) = some Value.none
  ∧ (evalProgram 50 c1Prog [] c1Tools).1.log = [("log", [])]
  ∧ List.lookup "r" (finalEnv (evalProgram 50 c1ProgClean [] [])) = some (.int 5) :=
  ⟨rfl, rfl, rfl⟩

/-- C2 (counterexample). The claim says attribute access is the
*only* mechanism reaching host values not explicitly exposed, and in
particular that no form of module import binds a host object. But the
program `import os` — containing no attribute node — binds the opaque
host module object `os` into the environment, starting from an empty
environment and registry. -/
theorem claim2_counterexample :
    c2Prog.all (fun e => !hasAttrF 10 e) = true
  ∧ List.lookup "os" (finalEnv (evalProgram 50 c2Prog [] [])) = some (.host (.module "os"))
  ∧ ¬ HostFreeV (.host (.module "os")) :=
  ⟨rfl, rfl, fun h => nomatch h⟩

/-- C3 (counterexample). The claim says a plain-name call resolves
when the name is bound in the environment to a callable. But
`evaluate_call` consults only the tool registry: with `f` bound in the
environment to a perfectly callable user-function value and the
registry empty, `r = f()` fails with the disallowed-call-target error —
even though invoking that same value directly succeeds (second
conjunct). -/
theorem claim3_counterexample :
    (evalProgram 50 c3Prog [("f", c3Fval)] []).2
      = .error (.interp "It is not permitted to evaluate other functions than the provided tools (tried to execute f).")
  ∧ (callValueH (evalAst 49) c3Fval [] [] c3St).2 = .ok (.int 7) :=
  ⟨rfl, rfl⟩

/-- C4 (counterexample). The claim says one unified comparator
serves both standalone comparisons and `if` tests, making `1 < 2 < 3`
true in both contexts. Standalone it is true (`evaluate_compare`,
pairwise AND), but as the test of a conditional the separate
`evaluate_condition` path rejects the chain with an
`InterpretorError`. -/
theorem claim4_counterexample :
    (evalProgram 50 c4ProgExpr [] []).2 = .ok (.bool true)
  ∧ (evalProgram 50 c4ProgIf [] []).2
      = .error (.interp "Cannot evaluate conditions with multiple operators") :=
  ⟨rfl, rfl⟩

/-- C6. The claim (and the spec's Try row) says the first handler
whose declared type matches the raised error runs. In the code
`isinstance(e, handler.type)` receives the *AST node* of the declared
type, so evaluating any typed handler makes the interpreter itself
raise `TypeError: isinstance() arg 2 must be a type, ...` — the
matching handler body never runs (first conjunct). Only a bare
(catch-all) handler works (second and third conjuncts). -/
theorem claim6_typed_handler_crashes :
    (evalProgram 50 c6ProgTyped [] []).2
      = .error (.host "TypeError" "isinstance() arg 2 must be a type, a tuple of types, or a union")
  ∧ (evalProgram 50 c6ProgBare [] []).2 = .ok .none
  ∧ List.lookup "x" (finalEnv (evalProgram 50 c6ProgBare [] [])) = some (.int 1) :=
  ⟨rfl, rfl, rfl⟩

/-- C8 (counterexample). The claim says a reference within edit
distance 1 of exactly one bound name resolves to it, and that ties go
to the first name in insertion order. Both fail on the code's actual
`difflib` semantics: `x` is at edit distance 1 of the only bound name
`y`, yet lookup fails (`SequenceMatcher` ratio 0 < 0.6); and for
`valu` with the equally-close keys `valua` (bound first) and `value`
(total match 4 of 9 in both cases), lookup resolves to `value` — the
lexicographically larger key, not the first inserted. -/
theorem claim8_counterexample :
    editDist "x" "y" = 1
  ∧ c8Env1.map Prod.fst = ["y"]
  ∧ (evalProgram 50 [.name "x"] c8Env1 []).2
      = .error (.interp "The variable `x` is not defined.")
  ∧ matchTotal "valua".data "valu".data = 4
  ∧ matchTotal "value".data "valu".data = 4
  ∧ (evalProgram 50 [.name "valu"] c8Env2 []).2 = .ok (.int 2) :=
  ⟨rfl, rfl, rfl, rfl, rfl, rfl⟩

/-- C9 (counterexample). The claim says every call runs the body
in a private copy of the *caller-visible* environment. But the closure
copies the *definition-scope* dict: in `c9ProgNested`, `g` binds
`x = 42` in its own local environment and then calls `f`; were the
caller-visible environment copied, `f` would return `42` — instead
`f`'s copy of the (x-less) global dict makes the reference fail. -/
theorem claim9_counterexample :
    (evalProgram 50 c9ProgNested [] []).2
      = .error (.interp "The variable `x` is not defined.") :=
  rfl

end PyInterp
